import Mathlib

/-!
Shallow embedding of the Gravatar proxy's cache store (`internal/cache/cache.go`)
and the proxy handler's cache-relevant control flow (`internal/proxy/proxy.go`).

Modelling conventions:
* Go `time.Time` values are modelled as `Int` instants; `time.Since(t)` with the
  current instant `now` is `now - t`.  Functions that call `time.Now()` take
  `now : Int` as an explicit argument.
* Byte payloads are `List Nat`.
* Go maps (`map[string]*CacheEntry`, `map[string]string`, the on-disk directory)
  are association lists with unique keys; the helper operations below reproduce
  map lookup/assignment/erase semantics.
* The file system is carried inside the state as a map from path to file data.
  Serialization (JSON) is treated as faithful: a metadata file stores the
  `Metadata` value, the index document stores the index plus the access list.
* Durable writes are modelled as succeeding; error branches of the Go code that
  only log and continue are therefore invisible, and `ReadData` returns `none`
  exactly where the Go function returns an error (missing entry or file).
-/

namespace GravatarProxy

/-- Association-list lookup, modelling Go map read (`m[k]`, comma-ok form). -/
def assocFind {α : Type} (l : List (String × α)) (k : String) : Option α :=
  (l.find? (fun p => p.1 == k)).map Prod.snd

/-- Remove every binding of key `k`, modelling Go `delete(m, k)` / `os.Remove`. -/
def assocErase {α : Type} (l : List (String × α)) (k : String) : List (String × α) :=
  l.filter (fun p => !(p.1 == k))

/-- Map assignment `m[k] = v` (also models an overwriting file write). -/
def assocSet {α : Type} (l : List (String × α)) (k : String) (v : α) : List (String × α) :=
  assocErase l k ++ [(k, v)]

/-- Go map read of a `map[string]string` returns the zero value `""` when absent. -/
def mapGet (l : List (String × String)) (k : String) : String :=
  (assocFind l k).getD ""

/-- `Metadata` from cache.go. -/
structure Metadata where
  createdAt : Int
  lastAccessedAt : Int
  headers : List (String × String)
  statusCode : Int
  size : Int
deriving DecidableEq

/-- `CacheEntry` from cache.go. -/
structure CacheEntry where
  key : String
  filePath : String
  metadata : Metadata
deriving DecidableEq

/-- Contents of one file in the cache directory. -/
inductive FileData
  | bytes (b : List Nat)
  | meta (m : Metadata)
  | indexDoc (entries : List (String × CacheEntry)) (accessList : List String)
deriving DecidableEq

/-- The `Cache` struct from cache.go together with its on-disk directory. -/
structure CacheState where
  dir : String
  ttl : Int
  maxBytes : Int
  index : List (String × CacheEntry)
  accessList : List String
  currentBytes : Int
  files : List (String × FileData)
deriving DecidableEq

/-- Sum of the `Size` fields of all index entries. -/
def sumSizes (idx : List (String × CacheEntry)) : Int :=
  (idx.map (fun p => p.2.metadata.size)).sum

/-- `updateAccessList`: remove the first occurrence of `k`, then append it. -/
def updateAccessList (al : List String) (k : String) : List String :=
  al.erase k ++ [k]

/-- The `evictIfNeeded` loop: while `currentBytes > maxBytes` and the access
list is nonempty, pop the head key; if it is indexed, delete its artifact and
metadata files, subtract its size and drop it from the index. -/
def evictLoop (dir : String) (ttl maxBytes : Int) :
    List String → List (String × CacheEntry) → Int → List (String × FileData) → CacheState
  | [], idx, cur, files => ⟨dir, ttl, maxBytes, idx, [], cur, files⟩
  | k :: rest, idx, cur, files =>
    if cur ≤ maxBytes then ⟨dir, ttl, maxBytes, idx, k :: rest, cur, files⟩
    else
      match assocFind idx k with
      | none => evictLoop dir ttl maxBytes rest idx cur files
      | some e =>
        evictLoop dir ttl maxBytes rest (assocErase idx k) (cur - e.metadata.size)
          (assocErase (assocErase files e.filePath) (e.filePath ++ ".meta"))

/-- `Cache.evictIfNeeded`. -/
def CacheState.evictIfNeeded (c : CacheState) : CacheState :=
  evictLoop c.dir c.ttl c.maxBytes c.accessList c.index c.currentBytes c.files

/-- `Cache.saveIndex`: write the index document to `<dir>/index.json`. -/
def CacheState.saveIndex (c : CacheState) : CacheState :=
  { c with files := assocSet c.files (c.dir ++ "/" ++ "index.json") (.indexDoc c.index c.accessList) }

/-- `Cache.Set`. -/
def CacheState.set (c : CacheState) (key : String) (data : List Nat) (md : Metadata) :
    CacheState :=
  let filePath := c.dir ++ "/" ++ key
  let metaPath := c.dir ++ "/" ++ key ++ ".meta"
  let files1 := assocSet c.files filePath (.bytes data)
  let md1 := { md with size := (data.length : Int) }
  let files2 := assocSet files1 metaPath (.meta md1)
  let entry : CacheEntry := ⟨key, filePath, md1⟩
  let cur1 :=
    match assocFind c.index key with
    | some e => c.currentBytes - e.metadata.size
    | none => c.currentBytes
  let idx1 := assocSet c.index key entry
  let cur2 := cur1 + md1.size
  let al1 := updateAccessList c.accessList key
  (evictLoop c.dir c.ttl c.maxBytes al1 idx1 cur2 files2).saveIndex

/-- `Cache.Get`: pure lookup returning the state (unchanged), the entry if
present, and the freshness flag. -/
def CacheState.get (c : CacheState) (now : Int) (key : String) :
    CacheState × Option CacheEntry × Bool :=
  match assocFind c.index key with
  | none => (c, none, false)
  | some e =>
    if now - e.metadata.createdAt > c.ttl then (c, some e, false)
    else (c, some e, true)

/-- `Cache.ReadData`: touch the access timestamp and recency order, persist the
metadata, then read the artifact file. -/
def CacheState.readData (c : CacheState) (now : Int) (key : String) :
    CacheState × Option (List Nat) :=
  match assocFind c.index key with
  | none => (c, none)
  | some e =>
    let e1 := { e with metadata := { e.metadata with lastAccessedAt := now } }
    let c1 :=
      { c with
          index := assocSet c.index key e1
          accessList := updateAccessList c.accessList key
          files := assocSet c.files (c.dir ++ "/" ++ key ++ ".meta") (.meta e1.metadata) }
    match assocFind c1.files e1.filePath with
    | some (FileData.bytes b) => (c1, some b)
    | _ => (c1, none)

/-- `Cache.UpdateMetadata`: replace the metadata of an existing entry and
persist it; the boolean is `false` exactly on the NotFound error. -/
def CacheState.updateMetadata (c : CacheState) (key : String) (md : Metadata) :
    CacheState × Bool :=
  match assocFind c.index key with
  | none => (c, false)
  | some e =>
    ({ c with
        index := assocSet c.index key { e with metadata := md }
        files := assocSet c.files (c.dir ++ "/" ++ key ++ ".meta") (.meta md) }, true)

/-- `Cache.CheckConditional`.  `parseTime` stands for `http.ParseTime` and
`ifNoneMatch` / `ifModifiedSince` for the two request header values (`""` when
the header is absent, as in Go). -/
def CacheState.checkConditional (c : CacheState) (parseTime : String → Option Int)
    (now : Int) (key : String) (ifNoneMatch ifModifiedSince : String) : Bool :=
  match assocFind c.index key with
  | none => false
  | some e =>
    if now - e.metadata.createdAt > c.ttl then false
    else if ifNoneMatch != "" && (mapGet e.metadata.headers "ETag" == ifNoneMatch) then true
    else if ifModifiedSince != "" then
      match parseTime ifModifiedSince with
      | none => false
      | some t =>
        let lastModified := mapGet e.metadata.headers "Last-Modified"
        if lastModified != "" then
          match parseTime lastModified with
          | some lmt => decide (lmt ≤ t)
          | none => false
        else false
    else false

/-- `Cache.GetMetadata` (a copy of the entry's metadata, or NotFound). -/
def CacheState.getMetadata (c : CacheState) (key : String) : Option Metadata :=
  (assocFind c.index key).map (·.metadata)

/-- `loadIndex` outcome: the index document is absent, undecodable, or decodes
to the given entries and access list. -/
inductive LoadResult
  | absent
  | malformed
  | ok (entries : List (String × CacheEntry)) (accessList : List String)

/-- `Cache.loadIndex`, acting on a freshly constructed state; the boolean
records whether it returned an error (absent is not an error). -/
def loadIndexInto (c : CacheState) : LoadResult → CacheState × Bool
  | .absent => (c, false)
  | .malformed => (c, true)
  | .ok es al =>
    ({ c with index := es, accessList := al, currentBytes := c.currentBytes + sumSizes es },
      false)

/-- `cache.New`: build the empty store, then load the index; the boolean is
`true` exactly when the load failed and the "starting fresh" warning was
logged.  Construction itself always succeeds. -/
def cacheNew (dir : String) (ttl maxBytes : Int) (r : LoadResult) : CacheState × Bool :=
  loadIndexInto ⟨dir, ttl, maxBytes, [], [], 0, []⟩ r

/-- Byte-wise lexicographic string comparison, as Go compares strings for
`sort.Strings` (characters stand for bytes). -/
def charListLe : List Char → List Char → Bool
  | [], _ => true
  | _ :: _, [] => false
  | a :: as, b :: bs => if a = b then charListLe as bs else decide (a < b)

/-- Lexicographic `≤` on strings. -/
def strLeB (a b : String) : Bool := charListLe a.data b.data

/-- `sort.Strings`: sort ascending by the lexicographic order (insertion sort;
any correct sort computes the same list, the unique sorted permutation). -/
def sortStrings (l : List String) : List String :=
  List.insertionSort (fun a b => strLeB a b = true) l

/-- `strings.Join(parts, "?")`. -/
def joinParts : List String → String
  | [] => ""
  | [p] => p
  | p :: q :: rest => p ++ "?" ++ joinParts (q :: rest)

/-- The canonical string that `Cache.GenerateKey` hashes: the path followed by
`name=value` pairs for the lexicographically sorted parameter names, all joined
with `"?"`. -/
def canonicalKeyString (path : String) (query : List (String × String)) : String :=
  joinParts (path :: (sortStrings (query.map Prod.fst)).map (fun k => k ++ "=" ++ mapGet query k))

/-- `Cache.GenerateKey`; `hash` stands for hex-encoded SHA-256 (a pure function
of the canonical string, external to this repository). -/
def generateKey (hash : String → String) (path : String)
    (query : List (String × String)) : String :=
  hash (canonicalKeyString path query)

/-- The upstream collaborator's answer to the conditional GET. -/
inductive UpstreamAnswer
  | failure
  | response (status : Int) (headers : List (String × String)) (body : List Nat)

/-- What one request produced: the store state afterwards, the response
(status, headers, body), whether the upstream was contacted, and whether the
stored artifact was read. -/
structure HandlerResult where
  state : CacheState
  status : Int
  headers : List (String × String)
  body : List Nat
  contactedUpstream : Bool
  readArtifact : Bool
deriving DecidableEq

/-- `fmt.Sprintf("public, max-age=%d", ttlSeconds)`. -/
def cacheControlValue (ttlSeconds : Int) : String :=
  "public, max-age=" ++ toString ttlSeconds

/-- Repeated `w.Header().Set(k, v)` over a header map. -/
def setAllHeaders (dst src : List (String × String)) : List (String × String) :=
  src.foldl (fun acc p => assocSet acc p.1 p.2) dst

/-- `cache.ExtractHeaders`: keep only the five allowed upstream headers. -/
def extractHeaders (hs : List (String × String)) : List (String × String) :=
  ["Content-Type", "ETag", "Last-Modified", "Cache-Control", "Content-Length"].foldl
    (fun acc k => if mapGet hs k != "" then assocSet acc k (mapGet hs k) else acc) []

/-- `Cache.WriteResponse`: read the artifact (touching recency), read the
metadata, and emit status / stored headers plus the synthesized
`Cache-Control`; `none` is the error case. -/
def CacheState.writeResponse (c : CacheState) (now : Int) (key : String) (ttlSeconds : Int) :
    CacheState × Option (Int × List (String × String) × List Nat) :=
  match c.readData now key with
  | (c1, none) => (c1, none)
  | (c1, some data) =>
    match c1.getMetadata key with
    | none => (c1, none)
    | some md =>
      let hs := assocSet (setAllHeaders [] md.headers) "Cache-Control"
        (cacheControlValue ttlSeconds)
      (c1, (md.statusCode, hs, data))

/-- `Handler.ServeHTTP` after key derivation (proxy.go lines 69-164): the
client-conditional check, the fresh-hit path, the upstream call with the
stale-revalidation merge, and the fresh-fetch path.  `upstream` is the
collaborator's answer, consulted only on the paths that reach it. -/
def serveAvatar (c : CacheState) (parseTime : String → Option Int) (now : Int)
    (key : String) (ifNoneMatch ifModifiedSince : String)
    (upstream : UpstreamAnswer) (ttlSeconds : Int) : HandlerResult :=
  if c.checkConditional parseTime now key ifNoneMatch ifModifiedSince then
    ⟨c, 304, [], [], false, false⟩
  else
    let res := c.get now key
    let entry := res.2.1
    if res.2.2 then
      match res.1.writeResponse now key ttlSeconds with
      | (c1, none) => ⟨c1, 500, [], [], false, true⟩
      | (c1, some (st, hs, data)) => ⟨c1, st, hs, data, false, true⟩
    else
      match upstream with
      | .failure => ⟨res.1, 502, [], [], true, false⟩
      | .response ust uhs ubody =>
        match entry with
        | some e =>
          if ust = 304 then
            let md := { e.metadata with createdAt := now, lastAccessedAt := now }
            let c1 := (res.1.updateMetadata key md).1
            match c1.writeResponse now key ttlSeconds with
            | (c2, none) => ⟨c2, 500, [], [], true, true⟩
            | (c2, some (st, hs, data)) => ⟨c2, st, hs, data, true, true⟩
          else
            let md : Metadata := ⟨now, now, extractHeaders uhs, ust, 0⟩
            let c1 := res.1.set key ubody md
            ⟨c1, ust,
              assocSet (setAllHeaders [] md.headers) "Cache-Control"
                (cacheControlValue ttlSeconds), ubody, true, false⟩
        | none =>
          let md : Metadata := ⟨now, now, extractHeaders uhs, ust, 0⟩
          let c1 := res.1.set key ubody md
          ⟨c1, ust,
            assocSet (setAllHeaders [] md.headers) "Cache-Control"
              (cacheControlValue ttlSeconds), ubody, true, false⟩

/-! Basic facts about the association-list operations. -/

theorem assocFind_cons {α : Type} (p : String × α) (t : List (String × α)) (k : String) :
    assocFind (p :: t) k = if p.1 = k then some p.2 else assocFind t k := by
  by_cases h : p.1 = k
  · simp [assocFind, List.find?_cons_of_pos, h]
  · simp [assocFind, List.find?_cons_of_neg, h]

theorem assocErase_cons {α : Type} (p : String × α) (t : List (String × α)) (k : String) :
    assocErase (p :: t) k = if p.1 = k then assocErase t k else p :: assocErase t k := by
  by_cases h : p.1 = k <;> simp [assocErase, List.filter_cons, h]

theorem assocFind_append {α : Type} (l1 l2 : List (String × α)) (k : String) :
    assocFind (l1 ++ l2) k =
      match assocFind l1 k with
      | some v => some v
      | none => assocFind l2 k := by
  induction l1 with
  | nil => rfl
  | cons p t ih =>
    by_cases h : p.1 = k <;> simp [assocFind_cons, h, ih]

theorem assocFind_erase_self {α : Type} (l : List (String × α)) (k : String) :
    assocFind (assocErase l k) k = none := by
  induction l with
  | nil => rfl
  | cons p t ih =>
    by_cases h : p.1 = k <;> simp [assocErase_cons, assocFind_cons, h, ih]

theorem assocFind_erase_ne {α : Type} (l : List (String × α)) (k k' : String)
    (h : k' ≠ k) : assocFind (assocErase l k) k' = assocFind l k' := by
  induction l with
  | nil => rfl
  | cons p t ih =>
    by_cases hp : p.1 = k
    · have hx : p.1 ≠ k' := by rw [hp]; exact fun e => h e.symm
      rw [assocErase_cons, if_pos hp, ih, assocFind_cons, if_neg hx]
    · rw [assocErase_cons, if_neg hp, assocFind_cons, ih, assocFind_cons]

theorem assocFind_set_self {α : Type} (l : List (String × α)) (k : String) (v : α) :
    assocFind (assocSet l k v) k = some v := by
  simp [assocSet, assocFind_append, assocFind_erase_self, assocFind_cons]

theorem assocFind_set_ne {α : Type} (l : List (String × α)) (k k' : String) (v : α)
    (h : k' ≠ k) : assocFind (assocSet l k v) k' = assocFind l k' := by
  have hkk : k ≠ k' := fun e => h e.symm
  simp only [assocSet, assocFind_append, assocFind_erase_ne l k k' h]
  cases hf : assocFind l k' with
  | none => simp [assocFind_cons, hkk, assocFind]
  | some v0 => rfl

theorem assocFind_eq_none_iff {α : Type} (l : List (String × α)) (k : String) :
    assocFind l k = none ↔ k ∉ l.map Prod.fst := by
  induction l with
  | nil => simp [assocFind]
  | cons p t ih =>
    by_cases h : p.1 = k
    · simp [assocFind_cons, h]
    · have hx : k ≠ p.1 := fun e => h e.symm
      simp [assocFind_cons, h, ih, hx]

theorem mem_of_assocFind_eq_some {α : Type} {l : List (String × α)} {k : String} {v : α}
    (h : assocFind l k = some v) : (k, v) ∈ l := by
  unfold assocFind at h
  cases hf : l.find? (fun p => p.1 == k) with
  | none => rw [hf] at h; simp at h
  | some pr =>
    rw [hf] at h
    simp at h
    have hm := List.mem_of_find?_eq_some hf
    have hk := List.find?_some hf
    obtain ⟨a, b⟩ := pr
    simp at hk h
    have he : ((a, b) : String × α) = (k, v) := by rw [hk, h]
    rw [← he]
    exact hm

theorem assocFind_eq_some_of_mem_nodup {α : Type} {l : List (String × α)} {k : String} {v : α}
    (hn : (l.map Prod.fst).Nodup) (hm : (k, v) ∈ l) : assocFind l k = some v := by
  induction l with
  | nil => simp at hm
  | cons p t ih =>
    simp only [List.map_cons, List.nodup_cons] at hn
    rcases List.mem_cons.mp hm with h | h
    · rw [← h]
      simp [assocFind_cons]
    · have hk : p.1 ≠ k := by
        intro e
        exact hn.1 (e ▸ (List.mem_map.mpr ⟨(k, v), h, rfl⟩))
      simp [assocFind_cons, hk, ih hn.2 h]

theorem assocErase_subset {α : Type} (l : List (String × α)) (k : String) :
    ∀ p ∈ assocErase l k, p ∈ l := fun _ hp => List.mem_of_mem_filter hp

theorem keys_erase_sublist {α : Type} (l : List (String × α)) (k : String) :
    ((assocErase l k).map Prod.fst).Sublist (l.map Prod.fst) :=
  List.Sublist.map Prod.fst (List.filter_sublist l)

theorem keys_nodup_erase {α : Type} {l : List (String × α)} (k : String)
    (h : (l.map Prod.fst).Nodup) : ((assocErase l k).map Prod.fst).Nodup :=
  (keys_erase_sublist l k).nodup h

theorem keys_nodup_set {α : Type} {l : List (String × α)} (k : String) (v : α)
    (h : (l.map Prod.fst).Nodup) : ((assocSet l k v).map Prod.fst).Nodup := by
  have h1 := keys_nodup_erase (l := l) k h
  have h2 : k ∉ (assocErase l k).map Prod.fst := by
    rw [← assocFind_eq_none_iff]
    exact assocFind_erase_self l k
  simp only [assocSet, List.map_append, List.map_cons, List.map_nil]
  exact List.Nodup.append h1 (List.nodup_singleton k)
    (by
      intro a ha hb
      simp at hb
      exact h2 (hb ▸ ha))

theorem assocErase_of_find_none {α : Type} {l : List (String × α)} {k : String}
    (h : assocFind l k = none) : assocErase l k = l := by
  induction l with
  | nil => rfl
  | cons p t ih =>
    by_cases hp : p.1 = k
    · simp [assocFind_cons, hp] at h
    · simp [assocFind_cons, hp] at h
      simp [assocErase_cons, hp, ih h]

theorem sumSizes_append (l1 l2 : List (String × CacheEntry)) :
    sumSizes (l1 ++ l2) = sumSizes l1 + sumSizes l2 := by
  simp [sumSizes, List.sum_append]

theorem sumSizes_erase {l : List (String × CacheEntry)} {k : String} {e : CacheEntry}
    (hn : (l.map Prod.fst).Nodup) (hf : assocFind l k = some e) :
    sumSizes (assocErase l k) = sumSizes l - e.metadata.size := by
  induction l with
  | nil => simp [assocFind] at hf
  | cons p t ih =>
    simp only [List.map_cons, List.nodup_cons] at hn
    by_cases hp : p.1 = k
    · rw [assocFind_cons, if_pos hp] at hf
      have he : p.2 = e := Option.some.inj hf
      have ht : assocFind t k = none := by
        rw [assocFind_eq_none_iff]
        exact hp ▸ hn.1
      rw [assocErase_cons, if_pos hp, assocErase_of_find_none ht]
      simp [sumSizes, he]
    · rw [assocFind_cons, if_neg hp] at hf
      rw [assocErase_cons, if_neg hp]
      have hrec := ih hn.2 hf
      simp [sumSizes] at hrec ⊢
      omega

theorem sumSizes_set {l : List (String × CacheEntry)} (k : String) (e : CacheEntry) :
    sumSizes (assocSet l k e) = sumSizes (assocErase l k) + e.metadata.size := by
  simp [assocSet, sumSizes_append, sumSizes]

/-! String path disjointness helpers. -/

theorem string_append_left_cancel {a b c : String} (h : a ++ b = a ++ c) : b = c := by
  apply String.ext
  have h2 := congrArg String.data h
  simp only [String.data_append] at h2
  exact List.append_cancel_left h2

theorem path_ne_of_key_ne {dir k0 k : String} (h : k0 ≠ k) :
    dir ++ "/" ++ k0 ≠ dir ++ "/" ++ k :=
  fun e => h (string_append_left_cancel e)

theorem meta_path_ne_self (x : String) : x ++ ".meta" ≠ x := by
  intro h
  have h2 := congrArg String.length h
  rw [String.length_append] at h2
  have h5 : (".meta" : String).length = 5 := rfl
  omega

/-! Unfolding equations for the eviction loop. -/

theorem evictLoop_nil (dir : String) (ttl maxB : Int) (idx : List (String × CacheEntry))
    (cur : Int) (files : List (String × FileData)) :
    evictLoop dir ttl maxB [] idx cur files = ⟨dir, ttl, maxB, idx, [], cur, files⟩ := rfl

theorem evictLoop_cons_stop {maxB cur : Int} (dir : String) (ttl : Int) (k : String)
    (rest : List String) (idx : List (String × CacheEntry)) (files : List (String × FileData))
    (h : cur ≤ maxB) :
    evictLoop dir ttl maxB (k :: rest) idx cur files =
      ⟨dir, ttl, maxB, idx, k :: rest, cur, files⟩ := by
  simp [evictLoop, h]

theorem evictLoop_cons_skip {maxB cur : Int} {idx : List (String × CacheEntry)} {k : String}
    (dir : String) (ttl : Int) (rest : List String) (files : List (String × FileData))
    (h : ¬ cur ≤ maxB) (hf : assocFind idx k = none) :
    evictLoop dir ttl maxB (k :: rest) idx cur files =
      evictLoop dir ttl maxB rest idx cur files := by
  simp [evictLoop, h, hf]

theorem evictLoop_cons_evict {maxB cur : Int} {idx : List (String × CacheEntry)} {k : String}
    {e : CacheEntry} (dir : String) (ttl : Int) (rest : List String)
    (files : List (String × FileData)) (h : ¬ cur ≤ maxB) (hf : assocFind idx k = some e) :
    evictLoop dir ttl maxB (k :: rest) idx cur files =
      evictLoop dir ttl maxB rest (assocErase idx k) (cur - e.metadata.size)
        (assocErase (assocErase files e.filePath) (e.filePath ++ ".meta")) := by
  simp [evictLoop, h, hf]

/-! Structural facts about the eviction loop, all by induction on the access list. -/

theorem evictLoop_config (dir : String) (ttl maxB : Int) :
    ∀ (al : List String) (idx : List (String × CacheEntry)) (cur : Int)
      (files : List (String × FileData)),
      (evictLoop dir ttl maxB al idx cur files).dir = dir ∧
      (evictLoop dir ttl maxB al idx cur files).ttl = ttl ∧
      (evictLoop dir ttl maxB al idx cur files).maxBytes = maxB := by
  intro al
  induction al with
  | nil => intro idx cur files; exact ⟨rfl, rfl, rfl⟩
  | cons k rest ih =>
    intro idx cur files
    by_cases h : cur ≤ maxB
    · rw [evictLoop_cons_stop dir ttl k rest idx files h]
      exact ⟨rfl, rfl, rfl⟩
    · cases hf : assocFind idx k with
      | none => rw [evictLoop_cons_skip dir ttl rest files h hf]; exact ih idx cur files
      | some e => rw [evictLoop_cons_evict dir ttl rest files h hf]; exact ih _ _ _

theorem evictLoop_index_none_mono (dir : String) (ttl maxB : Int) :
    ∀ (al : List String) (idx : List (String × CacheEntry)) (cur : Int)
      (files : List (String × FileData)) (k : String),
      assocFind idx k = none →
      assocFind (evictLoop dir ttl maxB al idx cur files).index k = none := by
  intro al
  induction al with
  | nil => intro idx cur files k h; exact h
  | cons k0 rest ih =>
    intro idx cur files k h
    by_cases hc : cur ≤ maxB
    · rw [evictLoop_cons_stop dir ttl k0 rest idx files hc]; exact h
    · cases hf : assocFind idx k0 with
      | none => rw [evictLoop_cons_skip dir ttl rest files hc hf]; exact ih idx cur files k h
      | some e =>
        rw [evictLoop_cons_evict dir ttl rest files hc hf]
        apply ih
        by_cases hk : k = k0
        · rw [hk]; exact assocFind_erase_self idx k0
        · rw [assocFind_erase_ne idx k0 k hk]; exact h

theorem evictLoop_files_none_mono (dir : String) (ttl maxB : Int) :
    ∀ (al : List String) (idx : List (String × CacheEntry)) (cur : Int)
      (files : List (String × FileData)) (p : String),
      assocFind files p = none →
      assocFind (evictLoop dir ttl maxB al idx cur files).files p = none := by
  intro al
  induction al with
  | nil => intro idx cur files p h; exact h
  | cons k0 rest ih =>
    intro idx cur files p h
    by_cases hc : cur ≤ maxB
    · rw [evictLoop_cons_stop dir ttl k0 rest idx files hc]; exact h
    · cases hf : assocFind idx k0 with
      | none => rw [evictLoop_cons_skip dir ttl rest files hc hf]; exact ih idx cur files p h
      | some e =>
        rw [evictLoop_cons_evict dir ttl rest files hc hf]
        apply ih
        by_cases h1 : p = e.filePath ++ ".meta"
        · rw [h1]; exact assocFind_erase_self _ _
        · rw [assocFind_erase_ne _ _ _ h1]
          by_cases h2 : p = e.filePath
          · rw [h2]; exact assocFind_erase_self _ _
          · rw [assocFind_erase_ne _ _ _ h2]; exact h

theorem evictLoop_stop (dir : String) (ttl maxB : Int) :
    ∀ (al : List String) (idx : List (String × CacheEntry)) (cur : Int)
      (files : List (String × FileData)),
      (evictLoop dir ttl maxB al idx cur files).currentBytes ≤ maxB ∨
      (evictLoop dir ttl maxB al idx cur files).accessList = [] := by
  intro al
  induction al with
  | nil => intro idx cur files; exact Or.inr rfl
  | cons k0 rest ih =>
    intro idx cur files
    by_cases hc : cur ≤ maxB
    · rw [evictLoop_cons_stop dir ttl k0 rest idx files hc]; exact Or.inl hc
    · cases hf : assocFind idx k0 with
      | none => rw [evictLoop_cons_skip dir ttl rest files hc hf]; exact ih idx cur files
      | some e => rw [evictLoop_cons_evict dir ttl rest files hc hf]; exact ih _ _ _

theorem evictLoop_bytes (dir : String) (ttl maxB : Int) :
    ∀ (al : List String) (idx : List (String × CacheEntry)) (cur : Int)
      (files : List (String × FileData)),
      (idx.map Prod.fst).Nodup → cur = sumSizes idx →
      (evictLoop dir ttl maxB al idx cur files).currentBytes =
        sumSizes (evictLoop dir ttl maxB al idx cur files).index ∧
      ((evictLoop dir ttl maxB al idx cur files).index.map Prod.fst).Nodup := by
  intro al
  induction al with
  | nil => intro idx cur files hn hc; exact ⟨hc, hn⟩
  | cons k0 rest ih =>
    intro idx cur files hn hc
    by_cases hb : cur ≤ maxB
    · rw [evictLoop_cons_stop dir ttl k0 rest idx files hb]; exact ⟨hc, hn⟩
    · cases hf : assocFind idx k0 with
      | none => rw [evictLoop_cons_skip dir ttl rest files hb hf]; exact ih idx cur files hn hc
      | some e =>
        rw [evictLoop_cons_evict dir ttl rest files hb hf]
        apply ih
        · exact keys_nodup_erase k0 hn
        · rw [sumSizes_erase hn hf, hc]

theorem evictLoop_coverage (dir : String) (ttl maxB : Int) :
    ∀ (al : List String) (idx : List (String × CacheEntry)) (cur : Int)
      (files : List (String × FileData)),
      (idx.map Prod.fst).Nodup → (∀ p ∈ idx, p.1 ∈ al) →
      ∀ p ∈ (evictLoop dir ttl maxB al idx cur files).index,
        p.1 ∈ (evictLoop dir ttl maxB al idx cur files).accessList := by
  intro al
  induction al with
  | nil => intro idx cur files _ hcov p hp; exact hcov p hp
  | cons k0 rest ih =>
    intro idx cur files hn hcov
    by_cases hb : cur ≤ maxB
    · rw [evictLoop_cons_stop dir ttl k0 rest idx files hb]; exact hcov
    · cases hf : assocFind idx k0 with
      | none =>
        rw [evictLoop_cons_skip dir ttl rest files hb hf]
        apply ih idx cur files hn
        intro p hp
        have hmem := hcov p hp
        rcases List.mem_cons.mp hmem with h | h
        · exfalso
          have := assocFind_eq_some_of_mem_nodup hn hp
          rw [h] at this
          rw [hf] at this
          exact Option.noConfusion this
        · exact h
      | some e =>
        rw [evictLoop_cons_evict dir ttl rest files hb hf]
        apply ih _ _ _ (keys_nodup_erase k0 hn)
        intro p hp
        have hp0 : p ∈ idx := assocErase_subset idx k0 p hp
        have hmem := hcov p hp0
        rcases List.mem_cons.mp hmem with h | h
        · exfalso
          have hne : assocFind (assocErase idx k0) k0 = none := assocFind_erase_self idx k0
          have hsome := assocFind_eq_some_of_mem_nodup (keys_nodup_erase k0 hn)
            hp
          rw [h] at hsome
          rw [hne] at hsome
          exact Option.noConfusion hsome
        · exact h

theorem evictLoop_removed (dir : String) (ttl maxB : Int) :
    ∀ (al : List String) (idx : List (String × CacheEntry)) (cur : Int)
      (files : List (String × FileData)),
      al.Nodup →
      ∃ pre : List String,
        al = pre ++ (evictLoop dir ttl maxB al idx cur files).accessList ∧
        (∀ k ∈ pre, assocFind (evictLoop dir ttl maxB al idx cur files).index k = none) ∧
        (∀ k, k ∉ pre →
          assocFind (evictLoop dir ttl maxB al idx cur files).index k = assocFind idx k) ∧
        (∀ k ∈ pre, ∀ e, assocFind idx k = some e →
          assocFind (evictLoop dir ttl maxB al idx cur files).files e.filePath = none ∧
          assocFind (evictLoop dir ttl maxB al idx cur files).files (e.filePath ++ ".meta")
            = none) := by
  intro al
  induction al with
  | nil =>
    intro idx cur files _
    exact ⟨[], rfl, by simp, fun k _ => rfl, by simp⟩
  | cons k0 rest ih =>
    intro idx cur files hnd
    have hnd0 : k0 ∉ rest := (List.nodup_cons.mp hnd).1
    have hndr : rest.Nodup := (List.nodup_cons.mp hnd).2
    by_cases hb : cur ≤ maxB
    · rw [evictLoop_cons_stop dir ttl k0 rest idx files hb]
      exact ⟨[], rfl, by simp, fun k _ => rfl, by simp⟩
    · cases hf : assocFind idx k0 with
      | none =>
        rw [evictLoop_cons_skip dir ttl rest files hb hf]
        obtain ⟨pre, h1, h2, h3, h4⟩ := ih idx cur files hndr
        refine ⟨k0 :: pre, by rw [List.cons_append, ← h1], ?_, ?_, ?_⟩
        · intro k hk
          rcases List.mem_cons.mp hk with h | h
          · subst h
            by_cases hkp : k ∉ pre
            · rw [h3 k hkp]; exact hf
            · exact h2 k (Classical.not_not.mp hkp)
          · exact h2 k h
        · intro k hk
          exact h3 k (fun hm => hk (List.mem_cons_of_mem k0 hm))
        · intro k hk e he
          rcases List.mem_cons.mp hk with h | h
          · subst h; rw [hf] at he; exact Option.noConfusion he
          · exact h4 k h e he
      | some e0 =>
        rw [evictLoop_cons_evict dir ttl rest files hb hf]
        obtain ⟨pre, h1, h2, h3, h4⟩ := ih (assocErase idx k0) (cur - e0.metadata.size)
          (assocErase (assocErase files e0.filePath) (e0.filePath ++ ".meta")) hndr
        have hk0pre : k0 ∉ pre := by
          intro hm
          exact hnd0 (h1 ▸ List.mem_append_left _ hm)
        refine ⟨k0 :: pre, by rw [List.cons_append, ← h1], ?_, ?_, ?_⟩
        · intro k hk
          rcases List.mem_cons.mp hk with h | h
          · subst h
            rw [h3 k hk0pre]
            exact assocFind_erase_self idx k
          · exact h2 k h
        · intro k hk
          have hkk0 : k ≠ k0 := fun h => hk (h ▸ List.mem_cons_self k0 pre)
          have hkp : k ∉ pre := fun hm => hk (List.mem_cons_of_mem k0 hm)
          rw [h3 k hkp, assocFind_erase_ne idx k0 k hkk0]
        · intro k hk e he
          rcases List.mem_cons.mp hk with h | h
          · subst h
            rw [hf] at he
            have hee : e0 = e := Option.some.inj he
            subst hee
            constructor
            · apply evictLoop_files_none_mono
              have hmeq : e0.filePath ≠ e0.filePath ++ ".meta" :=
                fun h => meta_path_ne_self e0.filePath h.symm
              rw [assocFind_erase_ne _ _ _ hmeq]
              exact assocFind_erase_self _ _
            · apply evictLoop_files_none_mono
              exact assocFind_erase_self _ _
          · have hkk0 : k ≠ k0 := fun hx => hnd0 (hx ▸ (h1 ▸ List.mem_append_left _ h))
            have he2 : assocFind (assocErase idx k0) k = some e := by
              rw [assocFind_erase_ne idx k0 k hkk0]; exact he
            exact h4 k h e he2

theorem evictLoop_survivor (dir : String) (ttl maxB : Int) :
    ∀ (al1 : List String) (k : String) (idx : List (String × CacheEntry)) (cur : Int)
      (files : List (String × FileData)) (e : CacheEntry),
      (al1 ++ [k]).Nodup →
      (idx.map Prod.fst).Nodup →
      (∀ p ∈ idx, p.1 ∈ al1 ++ [k]) →
      cur = sumSizes idx →
      (∀ p ∈ idx, 0 ≤ p.2.metadata.size) →
      assocFind idx k = some e →
      e.metadata.size ≤ maxB →
      (∀ p ∈ idx, p.2.filePath = dir ++ "/" ++ p.1) →
      (∀ p ∈ idx, p.1 ++ ".meta" ≠ k) →
      assocFind (evictLoop dir ttl maxB (al1 ++ [k]) idx cur files).index k = some e ∧
      assocFind (evictLoop dir ttl maxB (al1 ++ [k]) idx cur files).files (dir ++ "/" ++ k)
        = assocFind files (dir ++ "/" ++ k) := by
  intro al1
  induction al1 with
  | nil =>
    intro k idx cur files e _ hn hcov hc hpos hf hsz _ _
    by_cases hb : cur ≤ maxB
    · rw [List.nil_append, evictLoop_cons_stop dir ttl k [] idx files hb]
      exact ⟨hf, rfl⟩
    · exfalso
      cases idx with
      | nil => simp [assocFind] at hf
      | cons pr t =>
        cases t with
        | nil =>
          apply hb
          have hk : pr.1 = k := by
            have := hcov pr (List.mem_cons_self pr [])
            simpa using this
          rw [assocFind_cons, if_pos hk] at hf
          have hpe : pr.2 = e := Option.some.inj hf
          rw [hc]
          simp [sumSizes, hpe]
          exact hsz
        | cons pr2 t2 =>
          have hk1 : pr.1 = k := by simpa using hcov pr (List.mem_cons_self pr _)
          have hk2 : pr2.1 = k := by
            simpa using hcov pr2 (List.mem_cons_of_mem pr (List.mem_cons_self pr2 t2))
          simp only [List.map_cons] at hn
          have hn2 := List.nodup_cons.mp hn
          apply hn2.1
          rw [hk1, hk2]
          exact List.mem_cons_self k _
  | cons k0 rest ih =>
    intro k idx cur files e hnd hn hcov hc hpos hf hsz hwf hmeta
    rw [List.cons_append] at hnd
    have hnd2 := List.nodup_cons.mp hnd
    have hk0k : k0 ≠ k := by
      intro h
      apply hnd2.1
      rw [h]
      exact List.mem_append_right rest (List.mem_singleton_self k)
    by_cases hb : cur ≤ maxB
    · rw [List.cons_append, evictLoop_cons_stop dir ttl k0 (rest ++ [k]) idx files hb]
      exact ⟨hf, rfl⟩
    · cases hf0 : assocFind idx k0 with
      | none =>
        rw [List.cons_append, evictLoop_cons_skip dir ttl (rest ++ [k]) files hb hf0]
        apply ih k idx cur files e hnd2.2 hn ?_ hc hpos hf hsz hwf hmeta
        intro p hp
        have hm : p.1 ∈ k0 :: (rest ++ [k]) := by
          rw [← List.cons_append]
          exact hcov p hp
        rcases List.mem_cons.mp hm with h | h
        · exfalso
          have := assocFind_eq_some_of_mem_nodup hn hp
          rw [h, hf0] at this
          exact Option.noConfusion this
        · exact h
      | some e0 =>
        rw [List.cons_append, evictLoop_cons_evict dir ttl (rest ++ [k]) files hb hf0]
        have hmem0 : (k0, e0) ∈ idx := mem_of_assocFind_eq_some hf0
        have hres := ih k (assocErase idx k0) (cur - e0.metadata.size)
          (assocErase (assocErase files e0.filePath) (e0.filePath ++ ".meta")) e
          hnd2.2
          (keys_nodup_erase k0 hn)
          (by
            intro p hp
            have hp0 : p ∈ idx := assocErase_subset idx k0 p hp
            have hm : p.1 ∈ k0 :: (rest ++ [k]) := by
              rw [← List.cons_append]
              exact hcov p hp0
            rcases List.mem_cons.mp hm with h | h
            · exfalso
              have hnone : assocFind (assocErase idx k0) k0 = none :=
                assocFind_erase_self idx k0
              have hsome := assocFind_eq_some_of_mem_nodup (keys_nodup_erase k0 hn) hp
              rw [h, hnone] at hsome
              exact Option.noConfusion hsome
            · exact h)
          (by rw [sumSizes_erase hn hf0, hc])
          (fun p hp => hpos p (assocErase_subset idx k0 p hp))
          (by rw [assocFind_erase_ne idx k0 k hk0k.symm]; exact hf)
          hsz
          (fun p hp => hwf p (assocErase_subset idx k0 p hp))
          (fun p hp => hmeta p (assocErase_subset idx k0 p hp))
        refine ⟨hres.1, ?_⟩
        rw [hres.2]
        have hfp0 : e0.filePath = dir ++ "/" ++ k0 := hwf (k0, e0) hmem0
        have hne1 : dir ++ "/" ++ k ≠ e0.filePath ++ ".meta" := by
          rw [hfp0, String.append_assoc (dir ++ "/") k0 ".meta"]
          intro h
          exact hmeta (k0, e0) hmem0 (string_append_left_cancel h.symm)
        have hne2 : dir ++ "/" ++ k ≠ e0.filePath := by
          rw [hfp0]
          exact path_ne_of_key_ne (fun h => hk0k h.symm)
        rw [assocFind_erase_ne _ _ _ hne1, assocFind_erase_ne _ _ _ hne2]

/-! Helper lemmas about `ReadData` and the byte-total invariant. -/

theorem readData_none {c : CacheState} {now : Int} {key : String}
    (h : assocFind c.index key = none) : c.readData now key = (c, none) := by
  simp [CacheState.readData, h]

theorem readData_some_fst {c : CacheState} {now : Int} {key : String} {e : CacheEntry}
    (h : assocFind c.index key = some e) :
    (c.readData now key).1 =
      { c with
          index := assocSet c.index key
            { e with metadata := { e.metadata with lastAccessedAt := now } }
          accessList := updateAccessList c.accessList key
          files := assocSet c.files (c.dir ++ "/" ++ key ++ ".meta")
            (.meta { e.metadata with lastAccessedAt := now }) } := by
  simp only [CacheState.readData, h]
  split <;> rfl

theorem readData_some_snd {c : CacheState} {now : Int} {key : String} {e : CacheEntry}
    {b : List Nat} (h : assocFind c.index key = some e)
    (hne : e.filePath ≠ c.dir ++ "/" ++ key ++ ".meta")
    (hb : assocFind c.files e.filePath = some (FileData.bytes b)) :
    (c.readData now key).2 = some b := by
  simp only [CacheState.readData, h]
  rw [assocFind_set_ne _ _ _ _ hne, hb]

theorem set_preserves_inv (c : CacheState) (key : String) (data : List Nat) (md : Metadata)
    (hn : (c.index.map Prod.fst).Nodup) (hinv : c.currentBytes = sumSizes c.index) :
    (c.set key data md).currentBytes = sumSizes (c.set key data md).index ∧
    ((c.set key data md).index.map Prod.fst).Nodup := by
  have hsum : (match assocFind c.index key with
      | some e => c.currentBytes - e.metadata.size
      | none => c.currentBytes) + (data.length : Int) =
      sumSizes (assocSet c.index key
        ⟨key, c.dir ++ "/" ++ key, { md with size := (data.length : Int) }⟩) := by
    rw [sumSizes_set]
    cases hf : assocFind c.index key with
    | none => rw [assocErase_of_find_none hf, ← hinv]
    | some e =>
      rw [sumSizes_erase hn hf, ← hinv]
  exact evictLoop_bytes c.dir c.ttl c.maxBytes
    (updateAccessList c.accessList key)
    (assocSet c.index key ⟨key, c.dir ++ "/" ++ key, { md with size := (data.length : Int) }⟩)
    _ _ (keys_nodup_set key _ hn) hsum

/-! Concrete states used by the witnesses and counterexamples. -/

def mdSize5 : Metadata := ⟨0, 0, [], 200, 5⟩

def mdSize7 : Metadata := ⟨0, 0, [], 200, 7⟩

def mdSize5b : Metadata := ⟨3, 4, [], 201, 5⟩

def cInv : CacheState :=
  ⟨"d", 10, 100, [("k", ⟨"k", "d/k", mdSize5⟩)], ["k"], 5, [("d/k", FileData.bytes [7])]⟩

/-- C1 counterexample: the store satisfies the byte-total invariant, and a
single `UpdateMetadata` call whose metadata carries a different `Size` (7
instead of the stored 5) breaks it, because the running total is not
adjusted. -/
theorem c1_counterexample :
    cInv.currentBytes = sumSizes cInv.index ∧
    ¬ (cInv.updateMetadata "k" mdSize7).1.currentBytes =
        sumSizes (cInv.updateMetadata "k" mdSize7).1.index := by
  constructor
  · decide
  · decide

/-- C1 (amended): the running byte total equals the sum of the indexed `Size`
fields after `Set` (which subtracts any previous size for the key first) and
across the eviction loop (which subtracts each evicted entry's size); for
`UpdateMetadata` — which replaces the whole metadata record without adjusting
the total — the equality is preserved exactly when the new metadata's `Size`
equals the stored entry's `Size` (as is the case for the handler's
revalidation calls), not for every metadata argument. -/
theorem c1_byte_total_invariant (c : CacheState)
    (hn : (c.index.map Prod.fst).Nodup) (hinv : c.currentBytes = sumSizes c.index) :
    (∀ key data md,
      (c.set key data md).currentBytes = sumSizes (c.set key data md).index) ∧
    (∀ al idx cur files, (idx.map Prod.fst).Nodup → cur = sumSizes idx →
      (evictLoop c.dir c.ttl c.maxBytes al idx cur files).currentBytes =
        sumSizes (evictLoop c.dir c.ttl c.maxBytes al idx cur files).index) ∧
    (∀ key md e, assocFind c.index key = some e → md.size = e.metadata.size →
      (c.updateMetadata key md).1.currentBytes =
        sumSizes (c.updateMetadata key md).1.index) := by
  refine ⟨?_, ?_, ?_⟩
  · intro key data md
    exact (set_preserves_inv c key data md hn hinv).1
  · intro al idx cur files hn2 hc2
    exact (evictLoop_bytes c.dir c.ttl c.maxBytes al idx cur files hn2 hc2).1
  · intro key md e hf hsz
    unfold CacheState.updateMetadata
    rw [hf]
    dsimp only
    rw [sumSizes_set, sumSizes_erase hn hf, hinv, hsz]
    ring

/-- C1 witness: the amended invariant instantiated on a concrete store. -/
theorem c1_byte_total_invariant_witness :
    ((cInv.index.map Prod.fst).Nodup ∧ cInv.currentBytes = sumSizes cInv.index) ∧
    (cInv.set "k2" [1, 2] mdSize5b).currentBytes =
      sumSizes (cInv.set "k2" [1, 2] mdSize5b).index :=
  ⟨⟨by decide, by decide⟩,
    (c1_byte_total_invariant cInv (by decide) (by decide)).1 "k2" [1, 2] mdSize5b⟩

/-- C2: `Get` answers "not found" exactly when the key is absent from the
index; a present entry is always returned — stale entries included — with
`is_fresh` true iff `now - created_at ≤ ttl`. -/
theorem c2_get_freshness (c : CacheState) (now : Int) (key : String) :
    (assocFind c.index key = none → c.get now key = (c, none, false)) ∧
    (∀ e, assocFind c.index key = some e →
      c.get now key = (c, some e, decide (now - e.metadata.createdAt ≤ c.ttl))) := by
  constructor
  · intro h
    simp [CacheState.get, h]
  · intro e h
    unfold CacheState.get
    rw [h]
    by_cases hl : now - e.metadata.createdAt > c.ttl
    · have hd : ¬ now - e.metadata.createdAt ≤ c.ttl := not_le.mpr hl
      simp [hl, hd]
    · have hd : now - e.metadata.createdAt ≤ c.ttl := not_lt.mp hl
      simp [hl, hd]

/-- C2 witness: a stale entry (age 20 against TTL 10) is still returned, with
`is_fresh = false`; at age 5 it is fresh. -/
theorem c2_get_freshness_witness :
    assocFind cInv.index "k" = some ⟨"k", "d/k", mdSize5⟩ ∧
    cInv.get 20 "k" =
      (cInv, some ⟨"k", "d/k", mdSize5⟩, decide ((20 : Int) - mdSize5.createdAt ≤ cInv.ttl)) :=
  ⟨by decide, (c2_get_freshness cInv 20 "k").2 ⟨"k", "d/k", mdSize5⟩ (by decide)⟩

/-- C6: at startup an absent index document yields an empty store with no
warning, an undecodable one yields an empty store with a warning (construction
succeeds in both cases), and a successful load recomputes the running byte
total as the sum of the loaded entries' `Size` fields. -/
theorem c6_startup_load (dir : String) (ttl maxB : Int) :
    cacheNew dir ttl maxB .absent = (⟨dir, ttl, maxB, [], [], 0, []⟩, false) ∧
    cacheNew dir ttl maxB .malformed = (⟨dir, ttl, maxB, [], [], 0, []⟩, true) ∧
    (∀ es al, cacheNew dir ttl maxB (.ok es al) =
      (⟨dir, ttl, maxB, es, al, sumSizes es, []⟩, false)) := by
  refine ⟨rfl, rfl, fun es al => ?_⟩
  simp [cacheNew, loadIndexInto]

/-- C10: `Get` never mutates the store — index, recency list, timestamps and
byte total are all unchanged, even on a fresh hit — while `ReadData` touches
exactly the recency list and the looked-up entry's `last_accessed_at`
(persisting its metadata), leaving the byte total, the configuration and
every other key's entry intact. -/
theorem c10_get_frame (c : CacheState) (now : Int) (key : String) :
    (c.get now key).1 = c ∧
    (assocFind c.index key = none → c.readData now key = (c, none)) ∧
    ((c.readData now key).1.dir = c.dir ∧ (c.readData now key).1.ttl = c.ttl ∧
      (c.readData now key).1.maxBytes = c.maxBytes ∧
      (c.readData now key).1.currentBytes = c.currentBytes) ∧
    (∀ k', k' ≠ key → assocFind (c.readData now key).1.index k' = assocFind c.index k') ∧
    (∀ e, assocFind c.index key = some e →
      (c.readData now key).1.accessList = updateAccessList c.accessList key ∧
      assocFind (c.readData now key).1.index key =
        some { e with metadata := { e.metadata with lastAccessedAt := now } }) := by
  refine ⟨?_, fun h => readData_none h, ?_, ?_, ?_⟩
  · unfold CacheState.get
    cases hf : assocFind c.index key with
    | none => rfl
    | some e =>
      by_cases hl : now - e.metadata.createdAt > c.ttl <;> simp [hl]
  · cases hf : assocFind c.index key with
    | none => rw [readData_none hf]; exact ⟨rfl, rfl, rfl, rfl⟩
    | some e => rw [readData_some_fst hf]; exact ⟨rfl, rfl, rfl, rfl⟩
  · intro k' hk
    cases hf : assocFind c.index key with
    | none => rw [readData_none hf]
    | some e =>
      rw [readData_some_fst hf]
      exact assocFind_set_ne _ _ _ _ hk
  · intro e hf
    rw [readData_some_fst hf]
    exact ⟨rfl, assocFind_set_self _ _ _⟩

/-- C10 witness: instances of the frame facts on a concrete store. -/
theorem c10_get_frame_witness :
    (cInv.get 3 "k").1 = cInv ∧
    ("x" ≠ "k" →
      assocFind (cInv.readData 3 "k").1.index "x" = assocFind cInv.index "x") :=
  ⟨(c10_get_frame cInv 3 "k").1, (c10_get_frame cInv 3 "k").2.2.2.1 "x"⟩

/-! The arguments `Set` passes to the eviction loop, named so the loop lemmas
can be instantiated against `CacheState.set`. -/

def setIndexArg (c : CacheState) (key : String) (data : List Nat) (md : Metadata) :
    List (String × CacheEntry) :=
  assocSet c.index key ⟨key, c.dir ++ "/" ++ key, { md with size := (data.length : Int) }⟩

def setCurArg (c : CacheState) (key : String) (data : List Nat) : Int :=
  (match assocFind c.index key with
   | some e => c.currentBytes - e.metadata.size
   | none => c.currentBytes) + (data.length : Int)

def setFilesArg (c : CacheState) (key : String) (data : List Nat) (md : Metadata) :
    List (String × FileData) :=
  assocSet (assocSet c.files (c.dir ++ "/" ++ key) (.bytes data))
    (c.dir ++ "/" ++ key ++ ".meta") (.meta { md with size := (data.length : Int) })

theorem set_eq_evictLoop (c : CacheState) (key : String) (data : List Nat) (md : Metadata) :
    c.set key data md =
      (evictLoop c.dir c.ttl c.maxBytes (updateAccessList c.accessList key)
        (setIndexArg c key data md) (setCurArg c key data)
        (setFilesArg c key data md)).saveIndex := rfl

theorem updateAccessList_eq (al : List String) (k : String) :
    updateAccessList al k = al.erase k ++ [k] := rfl

theorem updateAccessList_nodup (al : List String) (k : String) (h : al.Nodup) :
    (updateAccessList al k).Nodup := by
  unfold updateAccessList
  apply List.Nodup.append (h.erase k) (List.nodup_singleton k)
  intro a ha hb
  rw [List.mem_singleton] at hb
  subst hb
  exact h.not_mem_erase ha

theorem ne_of_mem_assocErase {α : Type} {l : List (String × α)} {k : String} {p : String × α}
    (h : p ∈ assocErase l k) : p.1 ≠ k := by
  unfold assocErase at h
  have h2 := List.of_mem_filter h
  simpa using h2

theorem set_coverage (c : CacheState) (key : String) (data : List Nat) (md : Metadata)
    (hcov : ∀ p ∈ c.index, p.1 ∈ c.accessList) :
    ∀ p ∈ setIndexArg c key data md, p.1 ∈ updateAccessList c.accessList key := by
  intro p hp
  unfold setIndexArg assocSet at hp
  unfold updateAccessList
  rcases List.mem_append.mp hp with h | h
  · have hpk2 : p.1 ≠ key := ne_of_mem_assocErase h
    have hpm : p ∈ c.index := assocErase_subset _ _ p h
    exact List.mem_append_left _ ((List.mem_erase_of_ne hpk2).mpr (hcov p hpm))
  · rw [List.mem_singleton.mp h]
    exact List.mem_append_right _ (List.mem_singleton_self key)

theorem set_sizes_nonneg (c : CacheState) (key : String) (data : List Nat) (md : Metadata)
    (hpos : ∀ p ∈ c.index, 0 ≤ p.2.metadata.size) :
    ∀ p ∈ setIndexArg c key data md, 0 ≤ p.2.metadata.size := by
  intro p hp
  unfold setIndexArg assocSet at hp
  rcases List.mem_append.mp hp with h | h
  · exact hpos p (assocErase_subset _ _ p h)
  · rw [List.mem_singleton.mp h]
    exact Int.ofNat_nonneg data.length

theorem set_cur_eq (c : CacheState) (key : String) (data : List Nat) (md : Metadata)
    (hn : (c.index.map Prod.fst).Nodup) (hinv : c.currentBytes = sumSizes c.index) :
    setCurArg c key data = sumSizes (setIndexArg c key data md) := by
  unfold setCurArg setIndexArg
  rw [sumSizes_set]
  cases hf : assocFind c.index key with
  | none => rw [assocErase_of_find_none hf, ← hinv]
  | some e => rw [sumSizes_erase hn hf, ← hinv]

theorem set_wf_paths (c : CacheState) (key : String) (data : List Nat) (md : Metadata)
    (hwf : ∀ p ∈ c.index, p.2.filePath = c.dir ++ "/" ++ p.1) :
    ∀ p ∈ setIndexArg c key data md, p.2.filePath = c.dir ++ "/" ++ p.1 := by
  intro p hp
  unfold setIndexArg assocSet at hp
  rcases List.mem_append.mp hp with h | h
  · exact hwf p (assocErase_subset _ _ p h)
  · rw [List.mem_singleton.mp h]

theorem set_meta_keys (c : CacheState) (key : String) (data : List Nat) (md : Metadata)
    (hmeta : ∀ p ∈ c.index, p.1 ++ ".meta" ≠ key) :
    ∀ p ∈ setIndexArg c key data md, p.1 ++ ".meta" ≠ key := by
  intro p hp
  unfold setIndexArg assocSet at hp
  rcases List.mem_append.mp hp with h | h
  · exact hmeta p (assocErase_subset _ _ p h)
  · rw [List.mem_singleton.mp h]
    exact meta_path_ne_self key

/-- C5: eviction removes keys in recency order from the head of the access
list — the removed keys form an initial segment of the list, each loses its
index entry and both of its files — it never removes anything while the total
is at or under the ceiling (the loop is then the identity), it stops as soon
as the total is at or under the ceiling or the list is empty, and after any
`Set` the running total never exceeds the ceiling by more than the size of
the just-inserted entry. -/
theorem c5_eviction_lru (c : CacheState)
    (hn : (c.index.map Prod.fst).Nodup)
    (hcov : ∀ p ∈ c.index, p.1 ∈ c.accessList)
    (hinv : c.currentBytes = sumSizes c.index)
    (hpos : ∀ p ∈ c.index, 0 ≤ p.2.metadata.size)
    (hal : c.accessList.Nodup)
    (hmax : 0 ≤ c.maxBytes) :
    (∃ pre, c.accessList = pre ++ c.evictIfNeeded.accessList ∧
      (∀ k ∈ pre, assocFind c.evictIfNeeded.index k = none) ∧
      (∀ k, k ∉ pre → assocFind c.evictIfNeeded.index k = assocFind c.index k) ∧
      (∀ k ∈ pre, ∀ e, assocFind c.index k = some e →
        assocFind c.evictIfNeeded.files e.filePath = none ∧
        assocFind c.evictIfNeeded.files (e.filePath ++ ".meta") = none)) ∧
    (c.currentBytes ≤ c.maxBytes → c.evictIfNeeded = c) ∧
    (c.evictIfNeeded.currentBytes ≤ c.maxBytes ∨ c.evictIfNeeded.accessList = []) ∧
    c.evictIfNeeded.currentBytes = sumSizes c.evictIfNeeded.index ∧
    (∀ key data md,
      (c.set key data md).currentBytes ≤ c.maxBytes + (data.length : Int)) := by
  refine ⟨?_, ?_, ?_, ?_, ?_⟩
  · exact evictLoop_removed c.dir c.ttl c.maxBytes c.accessList c.index c.currentBytes
      c.files hal
  · intro hle
    obtain ⟨d, t, m, idx, al, cur, fl⟩ := c
    unfold CacheState.evictIfNeeded
    cases al with
    | nil => rfl
    | cons k rest => exact evictLoop_cons_stop d t k rest idx fl hle
  · exact evictLoop_stop c.dir c.ttl c.maxBytes c.accessList c.index c.currentBytes c.files
  · exact (evictLoop_bytes c.dir c.ttl c.maxBytes c.accessList c.index c.currentBytes
      c.files hn hinv).1
  · intro key data md
    have hlen : (0 : Int) ≤ (data.length : Int) := Int.ofNat_nonneg data.length
    have hn1 := keys_nodup_set (l := c.index) key
      (⟨key, c.dir ++ "/" ++ key, { md with size := (data.length : Int) }⟩ : CacheEntry) hn
    have hcov1 := set_coverage c key data md hcov
    have hcur := set_cur_eq c key data md hn hinv
    have hstop := evictLoop_stop c.dir c.ttl c.maxBytes (updateAccessList c.accessList key)
      (setIndexArg c key data md) (setCurArg c key data) (setFilesArg c key data md)
    have hbytes := evictLoop_bytes c.dir c.ttl c.maxBytes (updateAccessList c.accessList key)
      (setIndexArg c key data md) (setCurArg c key data) (setFilesArg c key data md)
      hn1 hcur
    have hcov2 := evictLoop_coverage c.dir c.ttl c.maxBytes (updateAccessList c.accessList key)
      (setIndexArg c key data md) (setCurArg c key data) (setFilesArg c key data md)
      hn1 hcov1
    have hcb : (c.set key data md).currentBytes =
        (evictLoop c.dir c.ttl c.maxBytes (updateAccessList c.accessList key)
          (setIndexArg c key data md) (setCurArg c key data)
          (setFilesArg c key data md)).currentBytes := by
      rw [set_eq_evictLoop]
      rfl
    rcases hstop with h | h
    · rw [hcb]; omega
    · have hidx : (evictLoop c.dir c.ttl c.maxBytes (updateAccessList c.accessList key)
          (setIndexArg c key data md) (setCurArg c key data)
          (setFilesArg c key data md)).index = [] := by
        apply List.eq_nil_iff_forall_not_mem.mpr
        intro p hp
        have hm := hcov2 p hp
        rw [h] at hm
        simp at hm
      have hz : (c.set key data md).currentBytes = 0 := by
        rw [hcb, hbytes.1, hidx]
        rfl
      omega

/-- C5 witness: on a concrete in-ceiling store, eviction is the identity and a
small `Set` stays within the ceiling plus the new entry's size. -/
theorem c5_eviction_lru_witness :
    ((cInv.index.map Prod.fst).Nodup ∧ (∀ p ∈ cInv.index, p.1 ∈ cInv.accessList) ∧
      cInv.currentBytes = sumSizes cInv.index ∧
      (∀ p ∈ cInv.index, 0 ≤ p.2.metadata.size) ∧
      cInv.accessList.Nodup ∧ 0 ≤ cInv.maxBytes) ∧
    (cInv.currentBytes ≤ cInv.maxBytes → cInv.evictIfNeeded = cInv) ∧
    (cInv.set "k2" [1, 2, 3] mdSize5b).currentBytes ≤
      cInv.maxBytes + ((3 : Nat) : Int) :=
  ⟨⟨by decide, by decide, by decide, by decide, by decide, by decide⟩,
    (c5_eviction_lru cInv (by decide) (by decide) (by decide) (by decide) (by decide)
        (by decide)).2.1,
    (c5_eviction_lru cInv (by decide) (by decide) (by decide) (by decide) (by decide)
        (by decide)).2.2.2.2 "k2" [1, 2, 3] mdSize5b⟩

/-- C9 counterexample: with a byte ceiling of 0 the just-inserted entry is
evicted by its own `Set`, so `Get` immediately afterwards finds nothing; and
`Set` keeps the caller's `created_at`, so a metadata record created long ago
yields `is_fresh = false` immediately after `Set`. -/
theorem c9_counterexample :
    ((CacheState.set ⟨"d", 100, 0, [], [], 0, []⟩ "k" [1] ⟨0, 0, [], 200, 0⟩).get 0 "k").2.1
        = none ∧
    ((CacheState.set ⟨"d", 100, 1000, [], [], 0, []⟩ "k" [1] ⟨0, 0, [], 200, 0⟩).get
        1000 "k").2.2 = false := by
  constructor
  · decide
  · decide

/-- C9 (amended): provided the payload fits under the byte ceiling (so the
fresh entry is not immediately evicted) and the metadata's `created_at` is
within TTL of now (as it is when the handler stamps it with the current
time), a `Set` followed by a `Get` finds the entry fresh, a `ReadData`
returns exactly the bytes passed to `Set`, and the recorded `Size` is the
payload length. -/
theorem c9_set_get_read (c : CacheState) (key : String) (data : List Nat) (md : Metadata)
    (now now2 : Int)
    (hn : (c.index.map Prod.fst).Nodup)
    (hcov : ∀ p ∈ c.index, p.1 ∈ c.accessList)
    (hinv : c.currentBytes = sumSizes c.index)
    (hpos : ∀ p ∈ c.index, 0 ≤ p.2.metadata.size)
    (hal : c.accessList.Nodup)
    (hwf : ∀ p ∈ c.index, p.2.filePath = c.dir ++ "/" ++ p.1)
    (hmeta : ∀ p ∈ c.index, p.1 ++ ".meta" ≠ key)
    (hsz : (data.length : Int) ≤ c.maxBytes)
    (hfresh : now - md.createdAt ≤ c.ttl)
    (hkey : key ≠ "index.json") :
    assocFind (c.set key data md).index key =
      some ⟨key, c.dir ++ "/" ++ key, { md with size := (data.length : Int) }⟩ ∧
    (c.set key data md).get now key =
      (c.set key data md,
        some ⟨key, c.dir ++ "/" ++ key, { md with size := (data.length : Int) }⟩, true) ∧
    ((c.set key data md).readData now2 key).2 = some data := by
  have hsurv := evictLoop_survivor c.dir c.ttl c.maxBytes (c.accessList.erase key) key
    (setIndexArg c key data md) (setCurArg c key data) (setFilesArg c key data md)
    ⟨key, c.dir ++ "/" ++ key, { md with size := (data.length : Int) }⟩
    (by rw [← updateAccessList_eq]; exact updateAccessList_nodup c.accessList key hal)
    (keys_nodup_set key _ hn)
    (by rw [← updateAccessList_eq]; exact set_coverage c key data md hcov)
    (set_cur_eq c key data md hn hinv)
    (set_sizes_nonneg c key data md hpos)
    (assocFind_set_self c.index key _)
    hsz
    (set_wf_paths c key data md hwf)
    (set_meta_keys c key data md hmeta)
  rw [← updateAccessList_eq] at hsurv
  have hfiles2 : assocFind (setFilesArg c key data md) (c.dir ++ "/" ++ key)
      = some (FileData.bytes data) := by
    unfold setFilesArg
    rw [assocFind_set_ne _ _ _ _ (fun h => meta_path_ne_self (c.dir ++ "/" ++ key) h.symm)]
    exact assocFind_set_self _ _ _
  have hconf := evictLoop_config c.dir c.ttl c.maxBytes (updateAccessList c.accessList key)
    (setIndexArg c key data md) (setCurArg c key data) (setFilesArg c key data md)
  have hsetdir : (c.set key data md).dir = c.dir := by
    rw [set_eq_evictLoop]; exact hconf.1
  have hsetttl : (c.set key data md).ttl = c.ttl := by
    rw [set_eq_evictLoop]; exact hconf.2.1
  have hfind : assocFind (c.set key data md).index key =
      some ⟨key, c.dir ++ "/" ++ key, { md with size := (data.length : Int) }⟩ := by
    rw [set_eq_evictLoop]
    exact hsurv.1
  have hfile : assocFind (c.set key data md).files (c.dir ++ "/" ++ key)
      = some (FileData.bytes data) := by
    rw [set_eq_evictLoop]
    unfold CacheState.saveIndex
    dsimp only
    rw [hconf.1, assocFind_set_ne _ _ _ _ (path_ne_of_key_ne hkey), hsurv.2, hfiles2]
  refine ⟨hfind, ?_, ?_⟩
  · unfold CacheState.get
    rw [hfind]
    dsimp only
    have httl : ¬ now - (⟨key, c.dir ++ "/" ++ key,
        { md with size := (data.length : Int) }⟩ : CacheEntry).metadata.createdAt
        > (c.set key data md).ttl := by
      rw [hsetttl]
      exact not_lt.mpr hfresh
    rw [if_neg httl]
  · apply readData_some_snd hfind ?_ ?_
    · show c.dir ++ "/" ++ key ≠ (c.set key data md).dir ++ "/" ++ key ++ ".meta"
      rw [hsetdir]
      exact fun h => meta_path_ne_self (c.dir ++ "/" ++ key) h.symm
    · show assocFind (c.set key data md).files (c.dir ++ "/" ++ key)
        = some (FileData.bytes data)
      exact hfile

/-- C9 witness: the amended round trip on an initially empty store. -/
theorem c9_set_get_read_witness :
    (((7 : Int) - (5 : Int) ≤ (10 : Int)) ∧ ((2 : Nat) : Int) ≤ (100 : Int) ∧
      ("k" : String) ≠ "index.json") ∧
    ((CacheState.set ⟨"d", 10, 100, [], [], 0, []⟩ "k" [7, 8] ⟨5, 5, [], 200, 0⟩).readData
        9 "k").2 = some [7, 8] :=
  ⟨⟨by decide, by decide, by decide⟩,
    (c9_set_get_read ⟨"d", 10, 100, [], [], 0, []⟩ "k" [7, 8] ⟨5, 5, [], 200, 0⟩ 7 9
      (by decide) (by decide) (by decide) (by decide) (by decide) (by decide) (by decide)
      (by decide) (by decide) (by decide)).2.2⟩

/-! The lexicographic comparison is a total, transitive, antisymmetric
relation, so sorting by it is a function of the multiset of keys. -/

theorem charListLe_total : ∀ a b, charListLe a b = true ∨ charListLe b a = true := by
  intro a
  induction a with
  | nil => intro b; exact Or.inl rfl
  | cons x xs ih =>
    intro b
    cases b with
    | nil => exact Or.inr rfl
    | cons y ys =>
      by_cases hxy : x = y
      · rcases ih ys with h | h
        · exact Or.inl (by simp [charListLe, hxy, h])
        · exact Or.inr (by simp [charListLe, hxy.symm, h])
      · have hyx : ¬ y = x := fun e => hxy e.symm
        rcases lt_or_gt_of_ne hxy with h | h
        · exact Or.inl (by simp [charListLe, hxy, h])
        · exact Or.inr (by simp [charListLe, hyx, h])

theorem charListLe_trans : ∀ a b c, charListLe a b = true → charListLe b c = true →
    charListLe a c = true := by
  intro a
  induction a with
  | nil => intro b c _ _; rfl
  | cons x xs ih =>
    intro b c hab hbc
    cases b with
    | nil => simp [charListLe] at hab
    | cons y ys =>
      cases c with
      | nil => simp [charListLe] at hbc
      | cons z zs =>
        by_cases hxy : x = y
        · simp only [charListLe, if_pos hxy] at hab
          by_cases hyz : y = z
          · simp only [charListLe, if_pos hyz] at hbc
            have hxz : x = z := hxy.trans hyz
            simp [charListLe, hxz, ih ys zs hab hbc]
          · simp only [charListLe, if_neg hyz] at hbc
            have hlt : x < z := hxy ▸ (by simpa using hbc)
            have hxz : x ≠ z := ne_of_lt hlt
            simp [charListLe, hxz, hlt]
        · simp only [charListLe, if_neg hxy] at hab
          have hab2 : x < y := by simpa using hab
          by_cases hyz : y = z
          · have hlt : x < z := hyz ▸ hab2
            simp [charListLe, ne_of_lt hlt, hlt]
          · simp only [charListLe, if_neg hyz] at hbc
            have hbc2 : y < z := by simpa using hbc
            have hlt : x < z := lt_trans hab2 hbc2
            simp [charListLe, ne_of_lt hlt, hlt]

theorem charListLe_antisymm : ∀ a b, charListLe a b = true → charListLe b a = true →
    a = b := by
  intro a
  induction a with
  | nil =>
    intro b _ hba
    cases b with
    | nil => rfl
    | cons y ys => simp [charListLe] at hba
  | cons x xs ih =>
    intro b hab hba
    cases b with
    | nil => simp [charListLe] at hab
    | cons y ys =>
      by_cases hxy : x = y
      · simp only [charListLe, if_pos hxy] at hab
        simp only [charListLe, if_pos hxy.symm] at hba
        rw [hxy, ih ys hab hba]
      · have hyx : ¬ y = x := fun e => hxy e.symm
        simp only [charListLe, if_neg hxy] at hab
        simp only [charListLe, if_neg hyx] at hba
        have h1 : x < y := by simpa using hab
        have h2 : y < x := by simpa using hba
        exact absurd h2 (lt_asymm h1)

instance strLeB_total : IsTotal String (fun a b => strLeB a b = true) :=
  ⟨fun a b => charListLe_total a.data b.data⟩

instance strLeB_trans : IsTrans String (fun a b => strLeB a b = true) :=
  ⟨fun a b c hab hbc => charListLe_trans a.data b.data c.data hab hbc⟩

instance strLeB_antisymm : IsAntisymm String (fun a b => strLeB a b = true) :=
  ⟨fun a b hab hba => String.ext (charListLe_antisymm a.data b.data hab hba)⟩

theorem sortStrings_perm (l : List String) : (sortStrings l).Perm l :=
  List.perm_insertionSort _ l

theorem sortStrings_sorted (l : List String) :
    (sortStrings l).Sorted (fun a b => strLeB a b = true) :=
  List.sorted_insertionSort _ l

theorem sortStrings_congr {l1 l2 : List String} (h : l1.Perm l2) :
    sortStrings l1 = sortStrings l2 :=
  List.eq_of_perm_of_sorted
    ((sortStrings_perm l1).trans (h.trans (sortStrings_perm l2).symm))
    (sortStrings_sorted l1) (sortStrings_sorted l2)

theorem assocFind_perm {q1 q2 : List (String × String)} (h : q1.Perm q2)
    (hn : (q1.map Prod.fst).Nodup) (k : String) : assocFind q1 k = assocFind q2 k := by
  have hn2 : (q2.map Prod.fst).Nodup := ((h.map Prod.fst).nodup_iff).mp hn
  cases hf : assocFind q1 k with
  | some v =>
    exact (assocFind_eq_some_of_mem_nodup hn2
      (h.mem_iff.mp (mem_of_assocFind_eq_some hf))).symm
  | none =>
    symm
    rw [assocFind_eq_none_iff] at hf ⊢
    intro hk
    exact hf (((h.map Prod.fst).mem_iff).mpr hk)

/-- C7: `GenerateKey` is a pure function of the path and the set of query
pairs: permuting the parameter pairs (Go map enumeration order) never changes
the derived key, and identical inputs trivially give identical keys. -/
theorem c7_generate_key_order_invariant (hash : String → String) (path : String)
    (q1 q2 : List (String × String)) (hperm : q1.Perm q2)
    (hn : (q1.map Prod.fst).Nodup) :
    generateKey hash path q1 = generateKey hash path q2 ∧
    (∀ (h2 : String → String) (p : String) (q : List (String × String)),
      generateKey h2 p q = generateKey h2 p q) := by
  refine ⟨?_, fun _ _ _ => rfl⟩
  unfold generateKey canonicalKeyString
  have hkeys : sortStrings (q1.map Prod.fst) = sortStrings (q2.map Prod.fst) :=
    sortStrings_congr (hperm.map Prod.fst)
  rw [hkeys]
  have hmap : (sortStrings (q2.map Prod.fst)).map (fun k => k ++ "=" ++ mapGet q1 k)
      = (sortStrings (q2.map Prod.fst)).map (fun k => k ++ "=" ++ mapGet q2 k) := by
    apply List.map_congr_left
    intro a _
    unfold mapGet
    rw [assocFind_perm hperm hn a]
  rw [hmap]

/-- C7 witness: two enumeration orders of the same two query parameters give
the same key. -/
theorem c7_generate_key_order_invariant_witness :
    (([("d", "retro"), ("s", "80")] : List (String × String)).Perm
        [("s", "80"), ("d", "retro")] ∧
      (([("d", "retro"), ("s", "80")] : List (String × String)).map Prod.fst).Nodup) ∧
    generateKey (fun s => s) "/avatar/h" [("d", "retro"), ("s", "80")] =
      generateKey (fun s => s) "/avatar/h" [("s", "80"), ("d", "retro")] :=
  ⟨⟨by decide, by decide⟩,
    (c7_generate_key_order_invariant (fun s => s) "/avatar/h"
      [("d", "retro"), ("s", "80")] [("s", "80"), ("d", "retro")]
      (by decide) (by decide)).1⟩

/-! Character-level analysis of the canonical key string, for the injectivity
claim about `GenerateKey`. -/

/-- `joinParts` seen on the underlying character lists. -/
def joinWithChar (sep : Char) : List (List Char) → List Char
  | [] => []
  | [p] => p
  | p :: q :: rest => p ++ sep :: joinWithChar sep (q :: rest)

theorem joinParts_data : ∀ l : List String,
    (joinParts l).data = joinWithChar '?' (l.map String.data)
  | [] => rfl
  | [p] => rfl
  | p :: q :: rest => by
    show (p ++ "?" ++ joinParts (q :: rest)).data = _
    rw [String.data_append, String.data_append, joinParts_data (q :: rest)]
    show (p.data ++ ['?']) ++ _ = p.data ++ '?' :: _
    simp

theorem append_sep_inj (sep : Char) : ∀ (a b x y : List Char), sep ∉ a → sep ∉ b →
    a ++ sep :: x = b ++ sep :: y → a = b ∧ x = y := by
  intro a
  induction a with
  | nil =>
    intro b x y _ hb h
    cases b with
    | nil =>
      simp only [List.nil_append] at h
      exact ⟨rfl, List.cons.inj h |>.2⟩
    | cons c bs =>
      simp only [List.nil_append, List.cons_append, List.cons.injEq] at h
      exfalso
      apply hb
      rw [h.1]
      exact List.mem_cons_self c bs
  | cons c as ih =>
    intro b x y ha hb h
    cases b with
    | nil =>
      simp only [List.cons_append, List.nil_append, List.cons.injEq] at h
      exfalso
      apply ha
      rw [← h.1]
      exact List.mem_cons_self c as
    | cons d bs =>
      simp only [List.cons_append, List.cons.injEq] at h
      obtain ⟨h1, h2⟩ := h
      have has : sep ∉ as := fun hm => ha (List.mem_cons_of_mem c hm)
      have hbs : sep ∉ bs := fun hm => hb (List.mem_cons_of_mem d hm)
      obtain ⟨e1, e2⟩ := ih bs x y has hbs h2
      exact ⟨by rw [h1, e1], e2⟩

theorem sep_mem_join (sep : Char) (a b : List Char) (l : List (List Char)) :
    sep ∈ joinWithChar sep (a :: b :: l) := by
  show sep ∈ a ++ sep :: joinWithChar sep (b :: l)
  exact List.mem_append_right a (List.mem_cons_self sep _)

theorem joinWithChar_inj (sep : Char) : ∀ (l1 l2 : List (List Char)),
    l1 ≠ [] → l2 ≠ [] → (∀ p ∈ l1, sep ∉ p) → (∀ p ∈ l2, sep ∉ p) →
    joinWithChar sep l1 = joinWithChar sep l2 → l1 = l2 := by
  intro l1
  induction l1 with
  | nil => intro l2 h; exact absurd rfl h
  | cons a t1 ih =>
    intro l2 _ hne2 hf1 hf2 heq
    cases l2 with
    | nil => exact absurd rfl hne2
    | cons b t2 =>
      cases t1 with
      | nil =>
        cases t2 with
        | nil =>
          rw [show joinWithChar sep [a] = a from rfl,
            show joinWithChar sep [b] = b from rfl] at heq
          rw [heq]
        | cons c t2' =>
          exfalso
          apply hf1 a (List.mem_cons_self a [])
          rw [show joinWithChar sep [a] = a from rfl] at heq
          rw [heq]
          exact sep_mem_join sep b c t2'
      | cons c t1' =>
        cases t2 with
        | nil =>
          exfalso
          apply hf2 b (List.mem_cons_self b [])
          rw [show joinWithChar sep [b] = b from rfl] at heq
          rw [← heq]
          exact sep_mem_join sep a c t1'
        | cons d t2' =>
          have heq2 : a ++ sep :: joinWithChar sep (c :: t1')
              = b ++ sep :: joinWithChar sep (d :: t2') := heq
          have ha : sep ∉ a := hf1 a (List.mem_cons_self a _)
          have hb : sep ∉ b := hf2 b (List.mem_cons_self b _)
          obtain ⟨e1, e2⟩ := append_sep_inj sep a b _ _ ha hb heq2
          have e3 := ih (d :: t2') (List.cons_ne_nil c t1') (List.cons_ne_nil d t2')
            (fun p hp => hf1 p (List.mem_cons_of_mem a hp))
            (fun p hp => hf2 p (List.mem_cons_of_mem b hp)) e2
          rw [e1, e3]

theorem pair_data (k v : String) : (k ++ "=" ++ v).data = k.data ++ '=' :: v.data := by
  rw [String.data_append, String.data_append]
  show (k.data ++ ['=']) ++ v.data = _
  simp

theorem map_data_inj : ∀ (l1 l2 : List String),
    l1.map String.data = l2.map String.data → l1 = l2 := by
  intro l1
  induction l1 with
  | nil =>
    intro l2 h
    cases l2 with
    | nil => rfl
    | cons b t => simp at h
  | cons a t ih =>
    intro l2 h
    cases l2 with
    | nil => simp at h
    | cons b t2 =>
      simp only [List.map_cons, List.cons.injEq] at h
      rw [String.ext h.1, ih t2 h.2]

theorem keys_of_pairs_eq (q1 q2 : List (String × String)) :
    ∀ (ks1 ks2 : List String),
      (∀ k ∈ ks1, ('=' : Char) ∉ k.data) → (∀ k ∈ ks2, ('=' : Char) ∉ k.data) →
      ks1.map (fun k => k ++ "=" ++ mapGet q1 k)
        = ks2.map (fun k => k ++ "=" ++ mapGet q2 k) →
      ks1 = ks2 ∧ ∀ k ∈ ks1, mapGet q1 k = mapGet q2 k := by
  intro ks1
  induction ks1 with
  | nil =>
    intro ks2 _ _ h
    cases ks2 with
    | nil => exact ⟨rfl, by simp⟩
    | cons b t => simp at h
  | cons a t1 ih =>
    intro ks2 h1 h2 h
    cases ks2 with
    | nil => simp at h
    | cons b t2 =>
      simp only [List.map_cons, List.cons.injEq] at h
      obtain ⟨hh, ht⟩ := h
      have hd := congrArg String.data hh
      rw [pair_data, pair_data] at hd
      obtain ⟨e1, e2⟩ := append_sep_inj '=' _ _ _ _
        (h1 a (List.mem_cons_self a t1)) (h2 b (List.mem_cons_self b t2)) hd
      have hab : a = b := String.ext e1
      have hv : mapGet q1 a = mapGet q2 b := String.ext e2
      obtain ⟨e3, e4⟩ := ih t2 (fun k hk => h1 k (List.mem_cons_of_mem a hk))
        (fun k hk => h2 k (List.mem_cons_of_mem b hk)) ht
      refine ⟨by rw [hab, e3], ?_⟩
      intro k hk
      rcases List.mem_cons.mp hk with hx | hx
      · subst hx
        rw [hv, hab]
      · exact e4 k hx

theorem part_no_questionmark (q : List (String × String))
    (hq : ∀ pr ∈ q, ('?' : Char) ∉ pr.1.data ∧ ('=' : Char) ∉ pr.1.data ∧
      ('?' : Char) ∉ pr.2.data) :
    ∀ k ∈ sortStrings (q.map Prod.fst),
      ('?' : Char) ∉ (k ++ "=" ++ mapGet q k).data := by
  intro k hk
  have hk2 : k ∈ q.map Prod.fst := (sortStrings_perm _).mem_iff.mp hk
  obtain ⟨pr, hpr, hprk⟩ := List.mem_map.mp hk2
  rw [pair_data]
  intro hm
  rcases List.mem_append.mp hm with h | h
  · apply (hq pr hpr).1
    rw [hprk]
    exact h
  · rcases List.mem_cons.mp h with h | h
    · exact absurd h (by decide)
    · cases hf : assocFind q k with
      | none =>
        rw [mapGet, hf] at h
        simp at h
      | some v =>
        have hmem := mem_of_assocFind_eq_some hf
        apply (hq (k, v) hmem).2.2
        rw [mapGet, hf] at h
        exact h

theorem sorted_key_no_eq (q : List (String × String))
    (hq : ∀ pr ∈ q, ('?' : Char) ∉ pr.1.data ∧ ('=' : Char) ∉ pr.1.data ∧
      ('?' : Char) ∉ pr.2.data) :
    ∀ k ∈ sortStrings (q.map Prod.fst), ('=' : Char) ∉ k.data := by
  intro k hk
  have hk2 : k ∈ q.map Prod.fst := (sortStrings_perm _).mem_iff.mp hk
  obtain ⟨pr, hpr, hprk⟩ := List.mem_map.mp hk2
  rw [← hprk]
  exact (hq pr hpr).2.1

/-- C8 counterexample: two distinct `(path, params)` inputs — a path that
contains the separator characters versus a path plus one parameter — produce
the same canonical string, hence the same derived key for every hash. -/
theorem c8_counterexample :
    canonicalKeyString "a?b=c" [] = canonicalKeyString "a" [("b", "c")] ∧
    ("a?b=c" : String) ≠ "a" := by
  constructor
  · decide
  · decide

/-- C8 (amended): the canonical string (and hence the derived key, up to hash
collision) is injective on `(path, params)` pairs provided the path and the
parameter values contain no `?` and the parameter names contain neither `?`
nor `=`; without that proviso distinct inputs can collide.  Stated
contrapositively: equal canonical strings force equal paths and equal
parameter mappings. -/
theorem c8_canonical_injective (p1 p2 : String) (q1 q2 : List (String × String))
    (hp1 : ('?' : Char) ∉ p1.data) (hp2 : ('?' : Char) ∉ p2.data)
    (hq1 : ∀ pr ∈ q1, ('?' : Char) ∉ pr.1.data ∧ ('=' : Char) ∉ pr.1.data ∧
      ('?' : Char) ∉ pr.2.data)
    (hq2 : ∀ pr ∈ q2, ('?' : Char) ∉ pr.1.data ∧ ('=' : Char) ∉ pr.1.data ∧
      ('?' : Char) ∉ pr.2.data)
    (heq : canonicalKeyString p1 q1 = canonicalKeyString p2 q2) :
    p1 = p2 ∧ ∀ k, mapGet q1 k = mapGet q2 k := by
  have hd := congrArg String.data heq
  unfold canonicalKeyString at hd
  rw [joinParts_data, joinParts_data] at hd
  simp only [List.map_cons, List.map_map] at hd
  have hj := joinWithChar_inj '?' _ _ (List.cons_ne_nil _ _) (List.cons_ne_nil _ _)
    (by
      intro p hp
      rcases List.mem_cons.mp hp with h | h
      · rw [h]; exact hp1
      · obtain ⟨k, hk, hkp⟩ := List.mem_map.mp h
        rw [← hkp]
        exact part_no_questionmark q1 hq1 k hk)
    (by
      intro p hp
      rcases List.mem_cons.mp hp with h | h
      · rw [h]; exact hp2
      · obtain ⟨k, hk, hkp⟩ := List.mem_map.mp h
        rw [← hkp]
        exact part_no_questionmark q2 hq2 k hk)
    hd
  have hhead : p1.data = p2.data := (List.cons.inj hj).1
  have htail := (List.cons.inj hj).2
  have htail2 : (sortStrings (q1.map Prod.fst)).map (fun k => k ++ "=" ++ mapGet q1 k)
      = (sortStrings (q2.map Prod.fst)).map (fun k => k ++ "=" ++ mapGet q2 k) := by
    apply map_data_inj
    rw [List.map_map, List.map_map]
    exact htail
  obtain ⟨hkeys, hvals⟩ := keys_of_pairs_eq q1 q2 _ _
    (sorted_key_no_eq q1 hq1) (sorted_key_no_eq q2 hq2) htail2
  refine ⟨String.ext hhead, ?_⟩
  intro k
  by_cases hk : k ∈ q1.map Prod.fst
  · exact hvals k ((sortStrings_perm _).mem_iff.mpr hk)
  · have hk2 : k ∉ q2.map Prod.fst := by
      intro hm
      apply hk
      apply (sortStrings_perm (q1.map Prod.fst)).mem_iff.mp
      rw [hkeys]
      exact (sortStrings_perm _).mem_iff.mpr hm
    unfold mapGet
    rw [(assocFind_eq_none_iff q1 k).mpr hk, (assocFind_eq_none_iff q2 k).mpr hk2]

/-- C8 witness: under the separator-free proviso, a concrete collision of
canonical strings forces equal paths and parameter maps (instantiated here
with syntactically equal inputs, the only way to satisfy the hypothesis). -/
theorem c8_canonical_injective_witness :
    (('?' : Char) ∉ ("a" : String).data ∧
      (∀ pr ∈ ([("b", "c")] : List (String × String)),
        ('?' : Char) ∉ pr.1.data ∧ ('=' : Char) ∉ pr.1.data ∧
          ('?' : Char) ∉ pr.2.data) ∧
      canonicalKeyString "a" [("b", "c")] = canonicalKeyString "a" [("b", "c")]) ∧
    (("a" : String) = "a" ∧
      ∀ k, mapGet [("b", "c")] k = mapGet [("b", "c")] k) :=
  ⟨⟨by decide, by decide, rfl⟩,
    c8_canonical_injective "a" "a" [("b", "c")] [("b", "c")]
      (by decide) (by decide) (by decide) (by decide) rfl⟩

/-- C3: `CheckConditional` succeeds if and only if the key is indexed, its age
is within TTL, and either the request's `If-None-Match` value (present, i.e.
nonempty) is a case-sensitive exact match of the stored `ETag`, or the
request's `If-Modified-Since` parses as a time and the stored `Last-Modified`
parses and is not after it; when it succeeds the handler answers 304 with no
body, does not contact the upstream and does not read the artifact, leaving
the store untouched.  (`http.ParseTime` rejects the empty string, which is how
Go represents an absent header.) -/
theorem c3_client_conditional (c : CacheState) (pt : String → Option Int) (now : Int)
    (key inm ims : String) (up : UpstreamAnswer) (ttlSeconds : Int)
    (hpt : pt "" = none) :
    (c.checkConditional pt now key inm ims = true ↔
      ∃ e, assocFind c.index key = some e ∧ now - e.metadata.createdAt ≤ c.ttl ∧
        ((inm ≠ "" ∧ mapGet e.metadata.headers "ETag" = inm) ∨
          (∃ t lmt, pt ims = some t ∧
            pt (mapGet e.metadata.headers "Last-Modified") = some lmt ∧ lmt ≤ t))) ∧
    (c.checkConditional pt now key inm ims = true →
      serveAvatar c pt now key inm ims up ttlSeconds = ⟨c, 304, [], [], false, false⟩) := by
  constructor
  · simp only [CacheState.checkConditional]
    cases hf : assocFind c.index key with
    | none => simp
    | some e =>
      dsimp only
      by_cases httl : now - e.metadata.createdAt > c.ttl
      · rw [if_pos httl]
        simp only [Bool.false_eq_true, false_iff]
        rintro ⟨e', he', hle, _⟩
        cases Option.some.inj he'
        exact absurd hle (not_le.mpr httl)
      · have hle := not_lt.mp httl
        rw [if_neg httl]
        by_cases hA : (inm != "" && (mapGet e.metadata.headers "ETag" == inm)) = true
        · rw [if_pos hA]
          simp only [true_iff]
          refine ⟨e, rfl, hle, Or.inl ?_⟩
          simpa using hA
        · rw [if_neg hA]
          have hA2 : ¬ (inm ≠ "" ∧ mapGet e.metadata.headers "ETag" = inm) := by
            intro hx
            apply hA
            simp [hx.1, hx.2]
          by_cases hims : ims = ""
          · subst hims
            simp [hpt, hA2]
          · have himsb : (ims != "") = true := by simpa using hims
            rw [if_pos himsb]
            cases hpti : pt ims with
            | none => simp [hpti, hA2]
            | some t =>
              dsimp only
              by_cases hlm : mapGet e.metadata.headers "Last-Modified" = ""
              · rw [hlm]
                simp [hpt, hA2, hpti, hlm]
              · have hlmb : (mapGet e.metadata.headers "Last-Modified" != "") = true := by
                  simpa using hlm
                rw [if_pos hlmb]
                cases hptl : pt (mapGet e.metadata.headers "Last-Modified") with
                | none => simp [hpti, hptl, hA2]
                | some lmt =>
                  simp [hpti, hptl, hA2]
                  intro _
                  omega
  · intro h
    simp [serveAvatar, h]

/-- C3 witness: a fresh entry whose stored ETag exactly matches the request's
`If-None-Match` makes the handler answer 304 without upstream contact. -/
theorem c3_client_conditional_witness :
    ((fun _ : String => (none : Option Int)) "" = none) ∧
    (CacheState.checkConditional
        ⟨"d", 10, 100,
          [("k", ⟨"k", "d/k", ⟨0, 0, [("ETag", "\x22abc123\x22")], 200, 1⟩⟩)], ["k"], 1, []⟩
        (fun _ => none) 5 "k" "\x22abc123\x22" "" = true ↔
      ∃ e, assocFind
          (⟨"d", 10, 100,
            [("k", ⟨"k", "d/k", ⟨0, 0, [("ETag", "\x22abc123\x22")], 200, 1⟩⟩)], ["k"], 1,
            []⟩ : CacheState).index "k" = some e ∧
        (5 : Int) - e.metadata.createdAt ≤ (10 : Int) ∧
        ((("\x22abc123\x22" : String) ≠ "" ∧
            mapGet e.metadata.headers "ETag" = "\x22abc123\x22") ∨
          (∃ t lmt, (fun _ : String => (none : Option Int)) "" = some t ∧
            (fun _ : String => (none : Option Int))
              (mapGet e.metadata.headers "Last-Modified") = some lmt ∧ lmt ≤ t))) :=
  ⟨rfl,
    (c3_client_conditional
      ⟨"d", 10, 100,
        [("k", ⟨"k", "d/k", ⟨0, 0, [("ETag", "\x22abc123\x22")], 200, 1⟩⟩)], ["k"], 1, []⟩
      (fun _ => none) 5 "k" "\x22abc123\x22" "" UpstreamAnswer.failure 10 rfl).1⟩

/-! Helper lemmas for the handler's revalidation path. -/

theorem checkConditional_stale (c : CacheState) (pt : String → Option Int) (now : Int)
    (key inm ims : String) (e : CacheEntry) (hf : assocFind c.index key = some e)
    (hstale : now - e.metadata.createdAt > c.ttl) :
    c.checkConditional pt now key inm ims = false := by
  simp only [CacheState.checkConditional, hf]
  rw [if_pos hstale]

theorem get_stale (c : CacheState) (now : Int) (key : String) (e : CacheEntry)
    (hf : assocFind c.index key = some e)
    (hstale : now - e.metadata.createdAt > c.ttl) :
    c.get now key = (c, some e, false) := by
  simp only [CacheState.get, hf]
  rw [if_pos hstale]

theorem updateMetadata_some (c : CacheState) (key : String) (md : Metadata)
    (e : CacheEntry) (hf : assocFind c.index key = some e) :
    c.updateMetadata key md =
      ({ c with
          index := assocSet c.index key { e with metadata := md }
          files := assocSet c.files (c.dir ++ "/" ++ key ++ ".meta") (.meta md) }, true) := by
  simp only [CacheState.updateMetadata, hf]

theorem writeResponse_some {c : CacheState} {now ttlSeconds : Int} {key : String}
    {e : CacheEntry} {ds : List Nat}
    (hf : assocFind c.index key = some e)
    (hne : e.filePath ≠ c.dir ++ "/" ++ key ++ ".meta")
    (hb : assocFind c.files e.filePath = some (FileData.bytes ds)) :
    c.writeResponse now key ttlSeconds =
      ((c.readData now key).1,
        some (e.metadata.statusCode,
          assocSet (setAllHeaders [] e.metadata.headers) "Cache-Control"
            (cacheControlValue ttlSeconds), ds)) := by
  have h2 := @readData_some_snd c now key e ds hf hne hb
  have h1 := @readData_some_fst c now key e hf
  have hpair : c.readData now key = ((c.readData now key).1, some ds) := by
    rw [← h2]
  unfold CacheState.writeResponse
  rw [hpair]
  dsimp only
  unfold CacheState.getMetadata
  rw [h1]
  dsimp only
  rw [assocFind_set_self]
  rfl

theorem setAllHeaders_get (l : List (String × String)) (hn : (l.map Prod.fst).Nodup) :
    ∀ (acc : List (String × String)) (k : String),
      assocFind (setAllHeaders acc l) k =
        match assocFind l k with
        | some v => some v
        | none => assocFind acc k := by
  induction l with
  | nil => intro acc k; rfl
  | cons p t ih =>
    intro acc k
    simp only [List.map_cons, List.nodup_cons] at hn
    rw [show setAllHeaders acc (p :: t) = setAllHeaders (assocSet acc p.1 p.2) t from rfl,
      ih hn.2 _ k]
    by_cases hk : p.1 = k
    · have ht : assocFind t k = none := by
        rw [assocFind_eq_none_iff]
        exact hk ▸ hn.1
      rw [ht, assocFind_cons, if_pos hk]
      rw [show k = p.1 from hk.symm, assocFind_set_self]
    · rw [assocFind_cons, if_neg hk]
      cases hft : assocFind t k with
      | some v => rfl
      | none => rw [assocFind_set_ne _ _ _ _ (fun x => hk x.symm)]

theorem response_headers_get {l : List (String × String)} (hn : (l.map Prod.fst).Nodup)
    (cc : String) (k : String) (hk : k ≠ "Cache-Control") :
    mapGet (assocSet (setAllHeaders [] l) "Cache-Control" cc) k = mapGet l k := by
  unfold mapGet
  rw [assocFind_set_ne _ _ _ _ hk, setAllHeaders_get l hn [] k]
  cases assocFind l k <;> rfl

/-- The entry as refreshed by the handler after an upstream 304: both
timestamps set to now, headers, status and size kept. -/
def mergedEntry (e : CacheEntry) (now : Int) : CacheEntry :=
  { e with
      metadata := ⟨now, now, e.metadata.headers, e.metadata.statusCode, e.metadata.size⟩ }

/-- The store state right after `UpdateMetadata` persists the refreshed
metadata. -/
def mergedState (c : CacheState) (key : String) (e : CacheEntry) (now : Int) : CacheState :=
  { c with
      index := assocSet c.index key (mergedEntry e now)
      files := assocSet c.files (c.dir ++ "/" ++ key ++ ".meta")
        (.meta (mergedEntry e now).metadata) }

/-- C4: on a stale-but-present entry, when the upstream conditional GET
answers 304 the handler keeps the stored artifact bytes unchanged, sets both
`created_at` and `last_accessed_at` to now, persists that metadata via
`UpdateMetadata` (the metadata file now holds the refreshed record), and
serves the stored bytes, the stored status code and the stored headers (plus
the synthesized `Cache-Control`). -/
theorem c4_upstream_304_merge (c : CacheState) (pt : String → Option Int) (now : Int)
    (key inm ims : String) (uhs : List (String × String)) (ubody : List Nat)
    (ttlSeconds : Int) (e : CacheEntry) (ds : List Nat) (r : HandlerResult)
    (hf : assocFind c.index key = some e)
    (hstale : now - e.metadata.createdAt > c.ttl)
    (hwf : e.filePath = c.dir ++ "/" ++ key)
    (hb : assocFind c.files e.filePath = some (FileData.bytes ds))
    (hnh : (e.metadata.headers.map Prod.fst).Nodup)
    (hr : r = serveAvatar c pt now key inm ims (.response 304 uhs ubody) ttlSeconds) :
    r.body = ds ∧
    r.status = e.metadata.statusCode ∧
    (∀ hk, hk ≠ "Cache-Control" → mapGet r.headers hk = mapGet e.metadata.headers hk) ∧
    r.contactedUpstream = true ∧
    assocFind r.state.index key =
      some ⟨e.key, e.filePath,
        ⟨now, now, e.metadata.headers, e.metadata.statusCode, e.metadata.size⟩⟩ ∧
    assocFind r.state.files e.filePath = some (FileData.bytes ds) ∧
    assocFind r.state.files (c.dir ++ "/" ++ key ++ ".meta") =
      some (FileData.meta
        ⟨now, now, e.metadata.headers, e.metadata.statusCode, e.metadata.size⟩) := by
  subst hr
  have hcond : ¬ (c.checkConditional pt now key inm ims = true) := by
    rw [checkConditional_stale c pt now key inm ims e hf hstale]
    simp
  have hget := get_stale c now key e hf hstale
  have hne : e.filePath ≠ c.dir ++ "/" ++ key ++ ".meta" := by
    rw [hwf]
    exact (meta_path_ne_self (c.dir ++ "/" ++ key)).symm
  have hupd := updateMetadata_some c key
    ⟨now, now, e.metadata.headers, e.metadata.statusCode, e.metadata.size⟩ e hf
  have hf1 : assocFind (mergedState c key e now).index key = some (mergedEntry e now) :=
    assocFind_set_self _ _ _
  have hne1 : (mergedEntry e now).filePath ≠
      (mergedState c key e now).dir ++ "/" ++ key ++ ".meta" := hne
  have hb1 : assocFind (mergedState c key e now).files (mergedEntry e now).filePath
      = some (FileData.bytes ds) := by
    show assocFind (assocSet c.files (c.dir ++ "/" ++ key ++ ".meta")
      (.meta (mergedEntry e now).metadata)) e.filePath = some (FileData.bytes ds)
    rw [assocFind_set_ne _ _ _ _ hne]
    exact hb
  have hserve : serveAvatar c pt now key inm ims (.response 304 uhs ubody) ttlSeconds =
      ⟨((mergedState c key e now).readData now key).1,
        (mergedEntry e now).metadata.statusCode,
        assocSet (setAllHeaders [] (mergedEntry e now).metadata.headers) "Cache-Control"
          (cacheControlValue ttlSeconds), ds, true, true⟩ := by
    unfold serveAvatar
    rw [if_neg hcond]
    simp only [hget]
    rw [if_neg (by decide : ¬ (false = true)), if_pos trivial]
    rw [show (c.updateMetadata key
        { e.metadata with createdAt := now, lastAccessedAt := now }).1
        = mergedState c key e now from by rw [hupd]; rfl]
    rw [writeResponse_some hf1 hne1 hb1]
  refine ⟨by rw [hserve], by rw [hserve]; rfl, ?_, by rw [hserve], ?_, ?_, ?_⟩
  · intro hk hkcc
    rw [hserve]
    exact response_headers_get hnh (cacheControlValue ttlSeconds) hk hkcc
  · rw [hserve]
    show assocFind (((mergedState c key e now).readData now key).1).index key = _
    rw [readData_some_fst hf1]
    exact assocFind_set_self _ _ _
  · rw [hserve]
    show assocFind (((mergedState c key e now).readData now key).1).files e.filePath = _
    rw [readData_some_fst hf1]
    dsimp only
    rw [assocFind_set_ne _ _ _ _
      (show e.filePath ≠ (mergedState c key e now).dir ++ "/" ++ key ++ ".meta" from hne)]
    exact hb1
  · rw [hserve]
    show assocFind (((mergedState c key e now).readData now key).1).files
      (c.dir ++ "/" ++ key ++ ".meta") = _
    rw [readData_some_fst hf1]
    exact assocFind_set_self _ _ _

/-- C4 witness: the merge path on a concrete one-entry store with a stale
entry (age 20, TTL 10) and an upstream 304 answer. -/
theorem c4_upstream_304_merge_witness :
    (assocFind cInv.index "k" = some ⟨"k", "d/k", mdSize5⟩ ∧
      (20 : Int) - mdSize5.createdAt > cInv.ttl ∧
      ("d/k" : String) = "d" ++ "/" ++ "k" ∧
      assocFind cInv.files "d/k" = some (FileData.bytes [7])) ∧
    (serveAvatar cInv (fun _ => none) 20 "k" "" "" (.response 304 [] []) 10).body = [7] :=
  ⟨⟨by decide, by decide, by decide, by decide⟩,
    (c4_upstream_304_merge cInv (fun _ => none) 20 "k" "" "" [] [] 10
      ⟨"k", "d/k", mdSize5⟩ [7] _ (by decide) (by decide) (by decide) (by decide)
      (by decide) rfl).1⟩

end GravatarProxy
